import Mathlib

/-!
# Reflector: reflection-driven binary serialization

A shallow embedding of `include/reflection/serializer.hpp` (wire codecs) and
of `ReflectedFields` from `include/reflection/api.hpp` (flattened field
traversal), followed by theorems about them.

Conventions of the embedding

* A byte is a `Fin 256`.  Values of a C++ integer type `T` are mathematical
  integers (`Int`); every conversion to a machine type is written out as a
  reduction modulo `2 ^ width`.  `uint64_t` locals are `Nat`s kept below
  `2 ^ 64`.
* Integral promotion is modelled: an operand narrower than `int` is computed
  in 32-bit `int`.  Signed overflow wraps (two's complement), which is what
  the conversions and C++20 shifts are defined to do and what the usual
  compilers emit for the additions.  A shift of an `int` by 32 or more takes
  the count modulo 32 as the x86-64 and AArch64 shift instructions do.
* The `IErrorHandler*` argument is only forwarded to the stream by the codecs
  embedded here, and is left out of them; `checkTag`, the one function that
  reports an error itself, takes the handler and returns it.
-/

namespace serialization

/-- One octet of the wire format (`uint8_t`). -/
abbrev Byte := Fin 256

/-- Modelled from the spec: the `IReader` stream contract
`read(errorHandler, buffer, length) -> bool`, whose declaration is in the
missing `base.hpp`.  A reader is the list of bytes not yet consumed; a read
of `length` bytes succeeds exactly when that many bytes remain. -/
abbrev IReader := List Byte

/-- Modelled from the spec: `IReader::read`.  Returns the bytes read and the
advanced reader, or `none` (the C++ `false`) on a short read. -/
def IReader.read (reader : IReader) (length : Nat) : Option (List Byte × IReader) :=
  if length ≤ reader.length then some (reader.take length, reader.drop length) else none

/-- Modelled from the spec: the `IWriter` stream contract
`write(errorHandler, buffer, length) -> bool`, whose declaration is in the
missing `base.hpp`.  `bytes` is everything accepted so far; `room` is the
number of further bytes the sink accepts (`none`: unbounded). -/
structure IWriter where
  bytes : List Byte
  room : Option Nat
deriving DecidableEq, Repr

/-- The writer state after `buf` has been accepted. -/
def IWriter.append (writer : IWriter) (buf : List Byte) : IWriter :=
  { bytes := writer.bytes ++ buf, room := writer.room.map (fun r => r - buf.length) }

/-- Modelled from the spec: `IWriter::write`.  The write is accepted whole or
refused whole. -/
def IWriter.write (writer : IWriter) (buf : List Byte) : Bool × IWriter :=
  match writer.room with
  | none => (true, writer.append buf)
  | some r => if buf.length ≤ r then (true, writer.append buf) else (false, writer)

/-- An empty in-memory sink without a size limit. -/
def IWriter.empty : IWriter := { bytes := [], room := none }

/-! ## Integer types -/

/-- A C++ integer type: its width in bits and its signedness. -/
structure IntType where
  bits : Nat
  signed : Bool
deriving DecidableEq, Repr

namespace IntType

def short : IntType := ⟨16, true⟩
def int : IntType := ⟨32, true⟩
/-- The LP64 `long`; on ILP32 and LLP64 targets `long` coincides with `int`. -/
def long : IntType := ⟨64, true⟩
def longLong : IntType := ⟨64, true⟩
def unsignedShort : IntType := ⟨16, false⟩
def unsignedInt : IntType := ⟨32, false⟩
def unsignedLong : IntType := ⟨64, false⟩
def unsignedLongLong : IntType := ⟨64, false⟩
/-- The types `size_t` and `uint64_t`. -/
def size_t : IntType := ⟨64, false⟩
def uint64_t : IntType := ⟨64, false⟩

/-- Smallest representable value. -/
def minVal (T : IntType) : Int := if T.signed then -(2 ^ (T.bits - 1) : Nat) else 0

/-- Largest representable value. -/
def maxVal (T : IntType) : Int :=
  if T.signed then (2 ^ (T.bits - 1) : Nat) - 1 else (2 ^ T.bits : Nat) - 1

/-- The value `v` is representable in `T`. -/
def InRange (T : IntType) (v : Int) : Prop := T.minVal ≤ v ∧ v ≤ T.maxVal

instance (T : IntType) (v : Int) : Decidable (T.InRange v) := by
  unfold InRange; infer_instance

/-- Conversion of a mathematical integer to `T`: reduction modulo `2 ^ bits`
into the range of `T`. -/
def wrap (T : IntType) (x : Int) : Int :=
  if T.signed then
    (x + (2 ^ (T.bits - 1) : Nat)) % (2 ^ T.bits : Nat) - (2 ^ (T.bits - 1) : Nat)
  else x % (2 ^ T.bits : Nat)

/-- Integral promotion: a type narrower than `int` is promoted to `int`. -/
def promote (T : IntType) : IntType := if T.bits < 32 then int else T

/-- The widths the integer codec is instantiated at. -/
def Supported (T : IntType) : Prop := T.bits = 16 ∨ T.bits = 32 ∨ T.bits = 64

instance (T : IntType) : Decidable T.Supported := by
  unfold Supported; infer_instance

end IntType

/-- Conversion to `uint64_t`. -/
def toU64 (x : Int) : Nat := (x % (2 ^ 64 : Nat)).toNat

/-- The expression `b << shift` for an `int` operand `b` (a promoted byte) and
an `unsigned int` count: the result is an `int`. -/
def shlInt (b : Nat) (shift : Nat) : Int := IntType.int.wrap ((b * 2 ^ (shift % 32) : Nat) : Int)

/-! ## SmvIntSerializer -/

namespace SmvIntSerializer

/-- Lines 144-152 of `serializeValue`: magnitude and sign of `value`. -/
def magnitudeSign (T : IntType) (value : Int) : Nat × Nat :=
  if value ≥ 0 then (toU64 value, 0)
  else
    -- `1 + ~value`, computed in the promoted type of `T`
    (toU64 (T.promote.wrap (1 + T.promote.wrap (-value - 1))), 1)

/-- The loop `while ((magnitude & (signMask - 1)) != magnitude) signMask <<= 7`
on `uint64_t`; `none` when `fuel` iterations did not reach the exit. -/
def signMaskLoop : Nat → Nat → Nat → Option Nat
  | 0, _, _ => none
  | fuel + 1, magnitude, signMask =>
    if (magnitude &&& ((signMask + (2 ^ 64 - 1)) % 2 ^ 64)) ≠ magnitude then
      signMaskLoop fuel magnitude ((signMask <<< 7) % 2 ^ 64)
    else some signMask

/-- The loop `while (signMask != 0) { ... write(byte) ... }`; `none` when
`fuel` iterations did not reach the exit. -/
def emitLoop : Nat → Nat → Nat → IWriter → Option (Bool × IWriter)
  | 0, _, _, _ => none
  | fuel + 1, magnitude, signMask, writer =>
    if signMask ≠ 0 then
      let byte := magnitude &&& 0x7f
      let magnitude := magnitude >>> 7
      let signMask := signMask >>> 7
      let byte := if signMask ≠ 0 then byte ||| 0x80 else byte
      match writer.write [Fin.ofNat byte] with
      | (false, writer) => some (false, writer)
      | (true, writer) => emitLoop fuel magnitude signMask writer
    else some (true, writer)

/-- The function `SmvIntSerializer<T>::serializeValue`.  The result is the
returned `bool` and the writer afterwards.  Both loops get 64 iterations, more
than a 64-bit mask shifted by 7 can need. -/
def serializeValue (T : IntType) (writer : IWriter) (value : Int) : Option (Bool × IWriter) :=
  let (magnitude, sign) := magnitudeSign T value
  match signMaskLoop 64 magnitude 0x40 with
  | none => none
  | some signMask =>
    let magnitude := magnitude ||| ((sign * signMask) % 2 ^ 64)
    let signMask := signMask ||| ((signMask + (2 ^ 64 - 1)) % 2 ^ 64)
    emitLoop 64 magnitude signMask writer

/-- Lines 202-208 of `deserializeValue`: the value stored in `value_out` for
the accumulated `magnitude`, negated as `1 + (T) ~magnitude` when the sign flag
is set. -/
def valueOf (T : IntType) (magnitude : Nat) (negative : Bool) : Int :=
  if negative then
    T.wrap (T.promote.wrap (1 + T.wrap ((2 ^ 64 - 1 - magnitude : Nat) : Int)))
  else T.wrap (magnitude : Int)

/-- The loop `for (;;)` of `deserializeValue`, from a given `magnitude` and
`shift`.  The result is the returned `bool`, the reader afterwards and the
content of `value_out` afterwards. -/
def deserializeLoop (T : IntType) : IReader → Nat → Nat → Int → Bool × IReader × Int
  | [], _, _, value_out => (false, [], value_out)
  | byte :: reader, magnitude, shift, value_out =>
    if byte.val &&& 0x80 ≠ 0 then
      deserializeLoop T reader (magnitude ||| toU64 (shlInt (byte.val &&& 0x7f) shift))
        ((shift + 7) % 2 ^ 32) value_out
    else
      let magnitude := magnitude ||| toU64 (shlInt (byte.val &&& 0x3f) shift)
      (true, reader, valueOf T magnitude (decide (byte.val &&& 0x40 ≠ 0)))

/-- The function `SmvIntSerializer<T>::deserializeValue`; `value_out` is the
content of the output variable before the call. -/
def deserializeValue (T : IntType) (reader : IReader) (value_out : Int) : Bool × IReader × Int :=
  deserializeLoop T reader 0 0 value_out

/-- The bytes `serializeValue` writes for `value` to an empty unbounded sink. -/
def encode (T : IntType) (value : Int) : List Byte :=
  match serializeValue T IWriter.empty value with
  | some (_, writer) => writer.bytes
  | none => []

/-- The wire form the proofs work with: `n + 1` groups, least significant
first, for a magnitude `m` below `2 ^ (7 * n + 6)` and a sign flag; every group
but the last carries the continuation bit `0x80`, the last carries the flag at
`0x40`. -/
def groups : Nat → Nat → Nat → List Byte
  | 0, m, sign => [Fin.ofNat (m % 64 + 64 * sign)]
  | n + 1, m, sign => Fin.ofNat (m % 128 + 128) :: groups n (m / 128) sign

end SmvIntSerializer

/-! ## Scalar codecs -/

/-- The interface every `Serializer<T>` offers: `serialize(err, writer, value)`
and `deserialize(err, reader, value_out)`.  `serialize` gives the returned
`bool` and the writer afterwards (`none`: a loop of the model ran out of
fuel); `deserialize` takes the content of `value_out` before the call and
gives the returned `bool`, the reader afterwards and `value_out` afterwards. -/
structure Serializer (T : Type) where
  serialize : IWriter → T → Option (Bool × IWriter)
  deserialize : IReader → T → Bool × IReader × T

namespace Serializer_bool

/-- The function `Serializer<bool>::serialize`. -/
def serialize (writer : IWriter) (value : Bool) : Bool × IWriter :=
  let normalizedValue : Byte := if value then 0x01 else 0x00
  writer.write [normalizedValue]

/-- The function `Serializer<bool>::deserialize`. -/
def deserialize (reader : IReader) (value_out : Bool) : Bool × IReader × Bool :=
  match reader.read 1 with
  | none => (false, reader, value_out)
  | some (value, reader) => (true, reader, decide (value ≠ [0]))

end Serializer_bool

namespace CharSerializer

/-- The function `CharSerializer<T>::serialize`, `T` a one-byte type. -/
def serialize (writer : IWriter) (value : Byte) : Bool × IWriter :=
  writer.write [value]

/-- The function `CharSerializer<T>::deserialize`. -/
def deserialize (reader : IReader) (value_out : Byte) : Bool × IReader × Byte :=
  match reader.read 1 with
  | none => (false, reader, value_out)
  | some (buf, reader) => (true, reader, buf.headD value_out)

end CharSerializer

/-- A floating-point type, given by `sizeof(T)`: 4 for `float`, 8 for
`double`.  A value of the type is its native object representation, a list of
`sizeof(T)` bytes. -/
structure FloatType where
  sizeof : Nat
deriving DecidableEq, Repr

/-- The type `float`. -/
def FloatType.float : FloatType := ⟨4⟩
/-- The type `double`. -/
def FloatType.double : FloatType := ⟨8⟩

namespace FloatSerializer

/-- The function `FloatSerializer<T, tag>::serialize`:
`writer->write(err, &value, 1)` hands the writer the first `1` byte of the
object at `&value`. -/
def serialize (_T : FloatType) (writer : IWriter) (value : List Byte) : Bool × IWriter :=
  writer.write (value.take 1)

/-- The function `FloatSerializer<T, tag>::deserialize`:
`reader->read(err, &value_out, 1)` stores `1` byte at the start of the object
at `&value_out`; the bytes after it keep their content. -/
def deserialize (_T : FloatType) (reader : IReader) (value_out : List Byte) :
    Bool × IReader × List Byte :=
  match reader.read 1 with
  | none => (false, reader, value_out)
  | some (buf, reader) => (true, reader, buf ++ value_out.drop 1)

end FloatSerializer

/-- The codec `Serializer<bool>`. -/
def Serializer.bool : Serializer Bool :=
  { serialize := fun w v => some (Serializer_bool.serialize w v)
    deserialize := Serializer_bool.deserialize }

/-- The codecs `Serializer<char>` and `Serializer<unsigned char>`. -/
def Serializer.char : Serializer Byte :=
  { serialize := fun w v => some (CharSerializer.serialize w v)
    deserialize := CharSerializer.deserialize }

/-- The codec `Serializer<T>` of an integer type `T`, which inherits
`SmvIntSerializer<T>::serialize` and `deserialize`. -/
def Serializer.smvInt (T : IntType) : Serializer Int :=
  { serialize := SmvIntSerializer.serializeValue T
    deserialize := SmvIntSerializer.deserializeValue T }

/-- The codecs `Serializer<float>` and `Serializer<double>`. -/
def Serializer.float (T : FloatType) : Serializer (List Byte) :=
  { serialize := fun w v => some (FloatSerializer.serialize T w v)
    deserialize := FloatSerializer.deserialize T }

/-- The bytes a codec writes for `value` to an empty unbounded sink. -/
def Serializer.encode {T : Type} (c : Serializer T) (value : T) : List Byte :=
  match c.serialize IWriter.empty value with
  | some (_, writer) => writer.bytes
  | none => []

/-- The codec round-trips on `value`: to an unbounded sink it writes, after
whatever the sink holds, the same bytes `encode value`, and decoding those
bytes followed by any suffix gives `value` back, whatever the output held, and
leaves the suffix. -/
def Serializer.RoundTrips {T : Type} (c : Serializer T) (value : T) : Prop :=
  (∀ w : IWriter, w.room = none → c.serialize w value = some (true, w.append (c.encode value))) ∧
    ∀ (prior : T) (rest : IReader),
      c.deserialize (c.encode value ++ rest) prior = (true, rest, value)

/-! ## Strings and vectors -/

namespace Serializer_string

/-- The function `Serializer<std::string>::serialize`; a `std::string` is its
sequence of bytes. -/
def serialize (writer : IWriter) (value : List Byte) : Option (Bool × IWriter) :=
  let length := value.length
  match SmvIntSerializer.serializeValue IntType.size_t writer length with
  | none => none
  | some (false, writer) => some (false, writer)
  | some (true, writer) => some (writer.write (value.take length))

/-- The loop `for (have = 0; have < length; have++)` of `deserialize`, with
`count` iterations left. -/
def readLoop : Nat → IReader → List Byte → Bool × IReader × List Byte
  | 0, reader, value_out => (true, reader, value_out)
  | count + 1, reader, value_out =>
    match reader.read 1 with
    | none => (false, reader, value_out)
    | some (next, reader) => readLoop count reader (value_out ++ next)

/-- The function `Serializer<std::string>::deserialize`. -/
def deserialize (reader : IReader) (value_out : List Byte) : Bool × IReader × List Byte :=
  match SmvIntSerializer.deserializeValue IntType.uint64_t reader 0 with
  | (false, reader, _) => (false, reader, value_out)
  | (true, reader, length) => readLoop length.toNat reader []

end Serializer_string

namespace Serializer_vector

variable {T : Type}

/-- The loop `for (i = 0; i < length; i++)` of `serialize`, over the elements
from index `i` on. -/
def writeLoop (elem : Serializer T) : List T → IWriter → Option (Bool × IWriter)
  | [], writer => some (true, writer)
  | x :: value, writer =>
    match elem.serialize writer x with
    | none => none
    | some (false, writer) => some (false, writer)
    | some (true, writer) => writeLoop elem value writer

/-- The function `Serializer<std::vector<T>>::serialize`. -/
def serialize (elem : Serializer T) (writer : IWriter) (value : List T) :
    Option (Bool × IWriter) :=
  let length := value.length
  match SmvIntSerializer.serializeValue IntType.size_t writer length with
  | none => none
  | some (false, writer) => some (false, writer)
  | some (true, writer) => writeLoop elem value writer

/-- The loop `for (i = 0; i < length; i++)` of `deserialize`, with `count`
iterations left: `emplace_back()` appends a value-initialised element `init`,
which the element codec then fills in place. -/
def readLoop (elem : Serializer T) (init : T) : Nat → IReader → List T → Bool × IReader × List T
  | 0, reader, value_out => (true, reader, value_out)
  | count + 1, reader, value_out =>
    match elem.deserialize reader init with
    | (false, reader, x) => (false, reader, value_out ++ [x])
    | (true, reader, x) => readLoop elem init count reader (value_out ++ [x])

/-- The function `Serializer<std::vector<T>>::deserialize`; `init` is the
value-initialised `T`. -/
def deserialize (elem : Serializer T) (init : T) (reader : IReader) (value_out : List T) :
    Bool × IReader × List T :=
  match SmvIntSerializer.deserializeValue IntType.uint64_t reader 0 with
  | (false, reader, _) => (false, reader, value_out)
  | (true, reader, length) => readLoop elem init length.toNat reader []

end Serializer_vector

end serialization

/-! ## ReflectedFields -/

namespace reflection

open serialization

/-- An address (`void*`). -/
abbrev Addr := Nat

/-- Modelled from the spec: the memory the field pointers point into, as a map
from the address of an object to the object; `V` is the type of the objects
that fields hold. -/
abbrev Memory (V : Type) := Addr → V

/-- Modelled from the spec: `ITypeReflection`, declared in the missing
`base.hpp`: the per-type singleton whose `serialize(err, writer, p_value)` and
`deserialize(err, reader, p_value)` run the codec of the type on the object
`p_value` points to.  Of its operations only these two are used here, so it is
the `Serializer` interface at the type of the objects. -/
abbrev ITypeReflection (V : Type) := Serializer V

/-- Modelled from the spec: `Field_t`, declared in the missing `base.hpp`, with
the members `api.hpp` uses. -/
structure Field_t (V : Type) where
  name : String
  systemFlags : Nat
  refl : ITypeReflection V
  fieldGetter : Addr → Addr

/-- Modelled from the spec: `FieldSet_t`, declared in the missing `base.hpp`.
`fields` is the array of `numFields` descriptors.  The link `baseClassFields`
is not a member here: a `FieldSet_t const*` is the list of the field sets
reached from it through `baseClassFields`, most derived first, and `nullptr`
is the empty list. -/
structure FieldSet_t (V : Type) where
  className : String
  fields : List (Field_t V)
  derivedPtrToBasePtr : Addr → Addr

/-- The member `numFields` of a field set: the length of its array. -/
abbrev FieldSet_t.numFields {V : Type} (s : FieldSet_t V) : Nat := s.fields.length

/-- The struct `ReflectedFields::Field`. -/
structure Field (V : Type) extends Field_t V where
  className : String
  inst : Addr
  field : Addr

/-- The constructor `Field(field_in, className, inst)`. -/
def Field.new {V : Type} (field_in : Field_t V) (className : String) (inst : Addr) : Field V :=
  { toField_t := field_in, className := className, inst := inst,
    field := field_in.fieldGetter inst }

/-- The member `Field::serialize`: `refl->serialize(err, writer, field)`. -/
def Field.serialize {V : Type} (f : Field V) (mem : Memory V) (writer : IWriter) :
    Option (Bool × IWriter) :=
  f.refl.serialize writer (mem f.field)

/-- The member `Field::deserialize`: `refl->deserialize(err, reader, field)`;
the object at `field` is replaced by what the codec leaves there. -/
def Field.deserialize {V : Type} (f : Field V) (mem : Memory V) (reader : IReader) :
    Bool × IReader × Memory V :=
  match f.refl.deserialize reader (mem f.field) with
  | (ok, reader, v) => (ok, reader, Function.update mem f.field v)

/-- The class `ReflectedFields<Ptr_t>`. -/
structure ReflectedFields (V : Type) where
  inst : Addr
  fieldSet : List (FieldSet_t V)
  numFields : Nat

namespace ReflectedFields

variable {V : Type}

/-- The loop of the constructor, from `p_fieldSet` with the running total
`numFields`.  The arrays counted are distinct objects in memory, so the
`size_t` total does not wrap. -/
def countLoop : List (FieldSet_t V) → Nat → Nat
  | [], numFields => numFields
  | p_fieldSet :: baseClassFields, numFields =>
    countLoop baseClassFields (numFields + p_fieldSet.numFields)

/-- The constructor `ReflectedFields(inst, fieldSet)`. -/
def new (inst : Addr) (fieldSet : List (FieldSet_t V)) : ReflectedFields V :=
  { inst := inst, fieldSet := fieldSet, numFields := countLoop fieldSet 0 }

/-- The loop `while (true)` of `operator []`, from `p_fieldSet` and `p_inst`.
`none` is the dereference of a null `p_fieldSet`. -/
def walk : List (FieldSet_t V) → Addr → Nat → Option (Field V)
  | [], _, _ => none
  | p_fieldSet :: baseClassFields, p_inst, index =>
    if h : index < p_fieldSet.numFields then
      some (Field.new (p_fieldSet.fields.get ⟨index, h⟩) p_fieldSet.className p_inst)
    else
      walk baseClassFields (p_fieldSet.derivedPtrToBasePtr p_inst) (index - p_fieldSet.numFields)

/-- The member `operator [] (size_t index)`. -/
def get (self : ReflectedFields V) (index : Nat) : Option (Field V) :=
  walk self.fieldSet self.inst index

/-- The member `count()`. -/
def count (self : ReflectedFields V) : Nat := self.numFields

end ReflectedFields

end reflection

/-! ## InstanceSerializer -/

namespace serialization

open reflection

namespace InstanceSerializer

variable {V : Type}

/-- The loop `for (i = 0; i < fields.count(); i++)` of `serializeInstance`
at index `i` with `todo` iterations left.  `none`: no result (an index
`operator []` cannot resolve, or a field codec without result). -/
def serializeLoop (fields : ReflectedFields V) (mem : Memory V) :
    Nat → Nat → IWriter → Option (Bool × IWriter)
  | 0, _, writer => some (true, writer)
  | todo + 1, i, writer =>
    match fields.get i with
    | none => none
    | some field =>
      match field.serialize mem writer with
      | none => none
      | some (false, writer) => some (false, writer)
      | some (true, writer) => serializeLoop fields mem todo (i + 1) writer

/-- The function `InstanceSerializer<C>::serializeInstance`; `mem` is the
memory holding the instance. -/
def serializeInstance (writer : IWriter) (_className : String) (fields : ReflectedFields V)
    (mem : Memory V) : Option (Bool × IWriter) :=
  serializeLoop fields mem fields.count 0 writer

/-- The loop `for (i = 0; i < fields.count(); i++)` of `deserializeInstance`
at index `i` with `todo` iterations left. -/
def deserializeLoop (fields : ReflectedFields V) :
    Nat → Nat → IReader → Memory V → Option (Bool × IReader × Memory V)
  | 0, _, reader, mem => some (true, reader, mem)
  | todo + 1, i, reader, mem =>
    match fields.get i with
    | none => none
    | some field =>
      match field.deserialize mem reader with
      | (false, reader, mem) => some (false, reader, mem)
      | (true, reader, mem) => deserializeLoop fields todo (i + 1) reader mem

/-- The function `InstanceSerializer<C>::deserializeInstance`; the result
holds the memory afterwards. -/
def deserializeInstance (reader : IReader) (_className : String) (fields : ReflectedFields V)
    (mem : Memory V) : Option (Bool × IReader × Memory V) :=
  deserializeLoop fields fields.count 0 reader mem

/-- The bytes `serializeInstance` writes for the instance to an empty unbounded
sink. -/
def encode (fields : ReflectedFields V) (mem : Memory V) : List Byte :=
  match serializeInstance IWriter.empty "" fields mem with
  | some (_, writer) => writer.bytes
  | none => []

end InstanceSerializer

end serialization

/-! ## Tags -/

namespace serialization

/-- The tag constants of the anonymous `enum` of `serializer.hpp`. -/
def TAG_NO_TYPE : Byte := 0x00
def TAG_VOID : Byte := 0x01
def TAG_BOOL : Byte := 0x02
def TAG_CHAR : Byte := 0x03
def TAG_SMVINT : Byte := 0x04
def TAG_REAL32 : Byte := 0x05
def TAG_REAL64 : Byte := 0x06
def TAG_UTF8 : Byte := 0x08
def TAG_TYPED_ARRAY : Byte := 0x09
def TAG_FIXED_ARRAY : Byte := 0x0A
def TAG_CLASS : Byte := 0x0C
def TAG_CLASS_SCHEMA : Byte := 0x0D

/-- One call of `errorf`: the error name, the format string and the values
formatted into it. -/
structure ErrorReport where
  name : String
  format : String
  args : List Nat
deriving DecidableEq, Repr

/-- Modelled from the spec: the `IErrorHandler` contract, declared in the
missing `base.hpp`: it accepts a named error kind plus a formatted message.
The handler is the list of the reports made so far by the code embedded here;
what a stream reports by itself on a short read is not part of these sources
and is not recorded. -/
abbrev IErrorHandler := List ErrorReport

/-- Modelled from the spec: `IErrorHandler::errorf(name, format, ...)`. -/
def IErrorHandler.errorf (err : IErrorHandler) (name format : String) (args : List Nat) :
    IErrorHandler :=
  err ++ [{ name := name, format := format, args := args }]

/-- The function `checkTag`.  The result is the returned `bool`, the error
handler afterwards and the reader afterwards. -/
def checkTag (err : IErrorHandler) (reader : IReader) (expected : Byte) :
    Bool × IErrorHandler × IReader :=
  match reader.read 1 with
  | none => (false, err, reader)
  | some (buf, reader) =>
    let tag : Byte := buf.headD 0
    if tag ≠ expected then
      (false, err.errorf "IncorrectType" "Unexpected tag 0x%02X, expected 0x%02X."
        [tag.val, expected.val], reader)
    else (true, err, reader)

/-- The function `writeTag`. -/
def writeTag (writer : IWriter) (tag : Byte) : Bool × IWriter :=
  writer.write [tag]

/-! ## Closed form of the emitted bytes -/

/-- The bytes the emit loop of `serializeValue` writes when the mask has `count`
groups of 7 bits: the groups of `magnitude`, least significant first, each but
the last with the continuation bit. -/
def SmvIntSerializer.emitBytes : Nat → Nat → List Byte
  | 0, _ => []
  | count + 1, magnitude =>
    Fin.ofNat (if count ≠ 0 then magnitude % 128 + 128 else magnitude % 128) ::
      SmvIntSerializer.emitBytes count (magnitude / 128)

/-! ## Element-wise decoding of a vector -/

/-- Starting from `reader`, the element codec decodes the elements `xs` one
after the other into value-initialised slots, each successfully, and ends at
`reader'`. -/
def Serializer_vector.DecodesSeq {T : Type} (elem : Serializer T) (init : T) :
    List T → IReader → IReader → Prop
  | [], reader, reader' => reader = reader'
  | x :: xs, reader, reader' =>
    ∃ r, elem.deserialize reader init = (true, r, x) ∧
      Serializer_vector.DecodesSeq elem init xs r reader'

/-! ## Class schema -/

/-- The function `strlen`.  The memory at a `const char*` is the list of the
bytes from the pointer on; the C string ends before the first zero byte (at the
end of the list when there is none). -/
def strlen (value : List Byte) : Nat := (value.takeWhile (fun b => b ≠ 0)).length

/-- The bytes a `const char*` name points to: the UTF-8 bytes of the name. -/
def nameBytes (name : String) : List Byte := name.toUTF8.data.toList.map (fun b => Fin.ofNat b.toNat)

/-- The struct `BufString_t` of the missing `bufstring.hpp`: `buf` holds a C
string; the capacity `bufSize` plays no part here. -/
structure BufString_t where
  buf : List Byte
deriving DecidableEq, Repr

/-- Modelled from the spec: `bufStringSet(err, buf, bufSize, str, length)`,
declared in the missing `bufstring.hpp`: afterwards `buf` holds the first
`length` bytes of `str` and a terminator.  The allocation is taken to
succeed. -/
def bufStringSet (str : List Byte) (length : Nat) : BufString_t := { buf := str.take length }

namespace Serializer_BufString

/-- The function `Serializer<BufString_t>::serialize(err, writer, const char*)`. -/
def serializeCStr (writer : IWriter) (value : List Byte) : Option (Bool × IWriter) :=
  let length := strlen value
  match SmvIntSerializer.serializeValue IntType.size_t writer length with
  | none => none
  | some (false, writer) => some (false, writer)
  | some (true, writer) => some (writer.write (value.take length))

/-- The function
`Serializer<BufString_t>::serialize(err, writer, const BufString_t&)`. -/
def serialize (writer : IWriter) (value : BufString_t) : Option (Bool × IWriter) :=
  serializeCStr writer value.buf

end Serializer_BufString

namespace InstanceSerializer

open reflection

variable {V : Type}

/-- The loop `for (i = 0; i < fields.count(); i++)` of `serializeSchema` at
index `i` with `todo` iterations left.  The member function
`ITypeReflection::serializeTypeInformation(err, writer, nullptr)`, declared in
the missing `base.hpp`, is the parameter `serializeTypeInformation`, a function
of the reflection object. -/
def schemaLoop (serializeTypeInformation : ITypeReflection V → IWriter → Option (Bool × IWriter))
    (fields : ReflectedFields V) : Nat → Nat → IWriter → Option (Bool × IWriter)
  | 0, _, writer => some (true, writer)
  | todo + 1, i, writer =>
    match fields.get i with
    | none => none
    | some field =>
      let name := nameBytes field.name
      let className := nameBytes field.className
      let cn := bufStringSet className (strlen className)
      let str := bufStringSet name (strlen name)
      match Serializer_BufString.serialize writer cn with
      | none => none
      | some (false, writer) => some (false, writer)
      | some (true, writer) =>
        match Serializer_BufString.serialize writer str with
        | none => none
        | some (false, writer) => some (false, writer)
        | some (true, writer) =>
          match serializeTypeInformation field.refl writer with
          | none => none
          | some (false, writer) => some (false, writer)
          | some (true, writer) =>
            schemaLoop serializeTypeInformation fields todo (i + 1) writer

/-- The function `InstanceSerializer<C>::serializeSchema`. -/
def serializeSchema
    (serializeTypeInformation : ITypeReflection V → IWriter → Option (Bool × IWriter))
    (writer : IWriter) (_className : String) (fields : ReflectedFields V) :
    Option (Bool × IWriter) :=
  let numFields := fields.count
  match (Serializer.smvInt IntType.size_t).serialize writer numFields with
  | none => none
  | some (false, writer) => some (false, writer)
  | some (true, writer) => schemaLoop serializeTypeInformation fields fields.count 0 writer

/-- The concatenation of `part 0`, ..., `part (n - 1)`. -/
def concatUpTo (part : Nat → List Byte) (n : Nat) : List Byte :=
  ((List.range n).map part).flatten

/-- The layout of a length-prefixed string as the claims word it: the SmvInt
encoding of the byte length, then the bytes of the C string. -/
def lengthPrefixed (value : List Byte) : List Byte :=
  SmvIntSerializer.encode IntType.size_t ((value.takeWhile (fun b => b ≠ 0)).length : Nat) ++
    value.takeWhile (fun b => b ≠ 0)

/-- The layout of the schema record of field `i` as the claims word it: the
length-prefixed name of the class that declares the field, the
length-prefixed name of the field, then the type-information block
`typeInfo i`. -/
def schemaRecord (fields : ReflectedFields V) (typeInfo : Nat → List Byte) (i : Nat) : List Byte :=
  match fields.get i with
  | none => []
  | some field =>
    lengthPrefixed (nameBytes field.className) ++ lengthPrefixed (nameBytes field.name) ++
      typeInfo i

/-- The bytes of a serialized class instance as the spec words the layout: field
values only, each through the codec of its descriptor, the fields of the
most-derived class first and each ancestor's fields after, an ancestor's fields
being read at its sub-object address (the address taken through the
pointer-adjustment functions of the levels before it). -/
def instanceLayout (mem : Memory V) : Addr → List (FieldSet_t V) → List Byte
  | _, [] => []
  | inst, S :: baseClassFields =>
    (S.fields.map (fun d => d.refl.encode (mem (d.fieldGetter inst)))).flatten ++
      instanceLayout mem (S.derivedPtrToBasePtr inst) baseClassFields

/-- The records of a class schema as the spec words the layout: level by level
in chain order and field by field, the length-prefixed name of the class that
declares the field, the length-prefixed name of the field and the
type-information block `typeInfo` of the field's reflection. -/
def schemaLayout (typeInfo : ITypeReflection V → List Byte) : List (FieldSet_t V) → List Byte
  | [] => []
  | S :: baseClassFields =>
    (S.fields.map (fun d =>
        lengthPrefixed (nameBytes S.className) ++ lengthPrefixed (nameBytes d.name) ++
          typeInfo d.refl)).flatten ++
      schemaLayout typeInfo baseClassFields

/-- The concatenation, level by level along the chain, of `g` at each field
written out in full: descriptor, class name of the level, sub-object address
of the level and field address.  Used in proofs to pass from indices to
levels. -/
def chainConcat (g : reflection.Field V → List Byte) : Addr → List (FieldSet_t V) → List Byte
  | _, [] => []
  | inst, S :: baseClassFields =>
    (S.fields.map (fun d =>
        g { toField_t := d, className := S.className, inst := inst,
            field := d.fieldGetter inst })).flatten ++
      chainConcat g (S.derivedPtrToBasePtr inst) baseClassFields

end InstanceSerializer

end serialization

/-! ## Sample data -/

namespace reflection.Sample

open serialization

/-- The reflection of `bool`, bound to `Serializer<bool>`. -/
def boolRefl : ITypeReflection Bool :=
  { serialize := Serializer.bool.serialize, deserialize := Serializer.bool.deserialize }

/-- A `bool` field stored `offset` bytes into its object. -/
def boolField (name : String) (offset : Nat) : Field_t Bool :=
  { name := name, systemFlags := 1, refl := boolRefl, fieldGetter := fun p => p + offset }

/-- Field set of a most-derived class with two fields; its base sub-object
starts 8 bytes in. -/
def derived : FieldSet_t Bool :=
  { className := "Derived", fields := [boolField "d0" 0, boolField "d1" 1],
    derivedPtrToBasePtr := fun p => p + 8 }

/-- Field set of the middle class with one field; its base sub-object starts
16 bytes in. -/
def middle : FieldSet_t Bool :=
  { className := "Middle", fields := [boolField "m0" 0],
    derivedPtrToBasePtr := fun p => p + 16 }

/-- Field set of the root class with two fields. -/
def root : FieldSet_t Bool :=
  { className := "Root", fields := [boolField "r0" 0, boolField "r1" 1],
    derivedPtrToBasePtr := fun p => p }

/-- A memory in which the objects at even addresses hold `true`. -/
def evenTrue : Memory Bool := fun a => decide (a % 2 = 0)

/-- The object representation of `1.0f` on a little-endian IEEE-754 machine. -/
def oneF : List Byte := [0x00, 0x00, 0x80, 0x3f]

/-- The object representation of `1.0` (`double`) on a little-endian IEEE-754
machine. -/
def oneD : List Byte := [0x00, 0x00, 0x00, 0x00, 0x00, 0x00, 0xf0, 0x3f]

/-- The bytes the fields of the three-level sample chain at address 100 hold in
`evenTrue`, by flattened index. -/
def fieldBytes (i : Nat) : List Byte := if i = 1 ∨ i = 4 then [0x00] else [0x01]

/-- A type-information writer for the samples: one tag byte, `TAG_BOOL`. -/
def typeInformation (_refl : ITypeReflection Bool) (writer : IWriter) : Option (Bool × IWriter) :=
  some (writer.write [TAG_BOOL])

end reflection.Sample

/-! # Theorems -/

namespace reflection

open serialization

variable {V : Type}

theorem ReflectedFields.countLoop_eq (fs : List (FieldSet_t V)) (acc : Nat) :
    ReflectedFields.countLoop fs acc = acc + (fs.map FieldSet_t.numFields).sum := by
  induction fs generalizing acc with
  | nil => simp [ReflectedFields.countLoop]
  | cons s base ih =>
    simp only [ReflectedFields.countLoop, ih, List.map_cons, List.sum_cons]
    omega

theorem ReflectedFields.count_new (inst : Addr) (fs : List (FieldSet_t V)) :
    (ReflectedFields.new inst fs).count = (fs.map FieldSet_t.numFields).sum := by
  simp [ReflectedFields.new, ReflectedFields.count, ReflectedFields.countLoop_eq]

theorem ReflectedFields.walk_append (pre : List (FieldSet_t V)) (rest : List (FieldSet_t V))
    (p_inst : Addr) (j : Nat) :
    ReflectedFields.walk (pre ++ rest) p_inst ((pre.map FieldSet_t.numFields).sum + j) =
      ReflectedFields.walk rest (pre.foldl (fun p s => s.derivedPtrToBasePtr p) p_inst) j := by
  induction pre generalizing p_inst with
  | nil => simp
  | cons s pre ih =>
    have hlt : ¬ (s.numFields + (pre.map FieldSet_t.numFields).sum + j < s.numFields) := by omega
    have hsub : s.numFields + (pre.map FieldSet_t.numFields).sum + j - s.numFields =
        (pre.map FieldSet_t.numFields).sum + j := by omega
    simp only [List.cons_append, List.map_cons, List.sum_cons, List.foldl_cons,
      ReflectedFields.walk, hlt, dite_false, hsub]
    exact ih _

theorem ReflectedFields.walk_none_iff (fs : List (FieldSet_t V)) (p_inst : Addr) (index : Nat) :
    ReflectedFields.walk fs p_inst index = none ↔ (fs.map FieldSet_t.numFields).sum ≤ index := by
  induction fs generalizing p_inst index with
  | nil => simp [ReflectedFields.walk]
  | cons s base ih =>
    simp only [ReflectedFields.walk, List.map_cons, List.sum_cons]
    by_cases h : index < s.numFields
    · simp only [h, dite_true]
      constructor
      · intro hc; cases hc
      · intro hc; omega
    · simp only [h, dite_false, ih]
      omega

/-- C5: for every instance and every chain of field sets, the empty chain
included, `count()` of the constructed view is the sum of `numFields` over the
field sets reached from the head through `baseClassFields`. -/
theorem ReflectedFields.count_eq_sum_numFields (inst : Addr) (fieldSet : List (FieldSet_t V)) :
    (ReflectedFields.new inst fieldSet).count = (fieldSet.map FieldSet_t.numFields).sum :=
  ReflectedFields.count_new inst fieldSet

/-- The walk of `operator []` through a chain `pre ++ S :: post`, at an index
`j` places past the fields of `pre`, ends in the constructor call of line 114
with the descriptor `S.fields[j]`. -/
theorem ReflectedFields.get_at_level (inst : Addr) (pre : List (FieldSet_t V)) (S : FieldSet_t V)
    (post : List (FieldSet_t V)) (j : Nat) (h : j < S.numFields) :
    (ReflectedFields.new inst (pre ++ S :: post)).get ((pre.map FieldSet_t.numFields).sum + j) =
      some (Field.new (S.fields.get ⟨j, h⟩) S.className
        (pre.foldl (fun p s => s.derivedPtrToBasePtr p) inst)) := by
  simp only [ReflectedFields.get, ReflectedFields.new, ReflectedFields.walk_append,
    ReflectedFields.walk, h, dite_true]

/-- C6: `operator []` yields a field exactly when `index < count()`, and
steps onto the null end of the chain (no field) exactly when
`index >= count()`. -/
theorem ReflectedFields.get_defined_iff (inst : Addr) (fieldSet : List (FieldSet_t V))
    (index : Nat) :
    ((∃ f, (ReflectedFields.new inst fieldSet).get index = some f) ↔
        index < (ReflectedFields.new inst fieldSet).count) ∧
      ((ReflectedFields.new inst fieldSet).get index = none ↔
        (ReflectedFields.new inst fieldSet).count ≤ index) := by
  have hn := ReflectedFields.walk_none_iff fieldSet inst index
  rw [ReflectedFields.count_new]
  simp only [ReflectedFields.get, ReflectedFields.new]
  refine ⟨?_, hn⟩
  rw [← Option.isSome_iff_exists, Option.isSome_iff_ne_none, Ne, hn]
  omega

end reflection

namespace serialization

/-! ## Streams -/

theorem IWriter.write_unbounded (w : IWriter) (h : w.room = none) (buf : List Byte) :
    w.write buf = (true, w.append buf) := by
  simp [IWriter.write, h]

theorem IWriter.append_room (w : IWriter) (h : w.room = none) (buf : List Byte) :
    (w.append buf).room = none := by
  simp [IWriter.append, h]

theorem IWriter.append_append (w : IWriter) (a b : List Byte) :
    (w.append a).append b = w.append (a ++ b) := by
  cases w with
  | mk bytes room =>
    cases room with
    | none => simp [IWriter.append]
    | some r => simp [IWriter.append]; omega

theorem IWriter.append_nil (w : IWriter) : w.append [] = w := by
  cases w with
  | mk bytes room => cases room <;> simp [IWriter.append]

theorem IWriter.empty_append_bytes (a : List Byte) : (IWriter.empty.append a).bytes = a := by
  simp [IWriter.empty, IWriter.append]

theorem IWriter.empty_room : IWriter.empty.room = none := rfl

theorem IReader.read_one_cons (b : Byte) (r : IReader) :
    IReader.read (b :: r) 1 = some ([b], r) := by
  simp [IReader.read]

theorem IReader.read_one_nil : IReader.read [] 1 = none := by
  simp [IReader.read]

/-! ## Bit operations on bytes -/

theorem and_7f (x : Nat) : x &&& 0x7f = x % 128 := Nat.and_pow_two_sub_one_eq_mod x 7

theorem and_3f (x : Nat) : x &&& 0x3f = x % 64 := Nat.and_pow_two_sub_one_eq_mod x 6

set_option maxRecDepth 100000 in
theorem byte_and_80 (b : Byte) : b.val &&& 0x80 ≠ 0 ↔ 128 ≤ b.val := by
  revert b; decide

set_option maxRecDepth 100000 in
theorem byte_and_40 (b : Byte) : b.val &&& 0x40 ≠ 0 ↔ b.val / 64 % 2 = 1 := by
  revert b; decide

theorem or_80 (x : Nat) (h : x < 128) : x ||| 0x80 = x + 128 := by
  have h7 : x < 2 ^ 7 := by simpa using h
  have := Nat.mul_add_lt_is_or h7 1
  simp only [Nat.reducePow, Nat.mul_one] at this
  rw [Nat.lor_comm, ← this]; omega

end serialization

namespace serialization.SmvIntSerializer

/-! ## The encoder -/

theorem signMaskLoop_exit (fuel m k : Nat) (hk : k ≤ 63) (hm : m < 2 ^ k) :
    signMaskLoop (fuel + 1) m (2 ^ k) = some (2 ^ k) := by
  have h1 : 1 ≤ 2 ^ k := Nat.one_le_two_pow
  have h2 : 2 ^ k < 2 ^ 64 := Nat.pow_lt_pow_right (by norm_num) (by omega)
  have hmask : (2 ^ k + (2 ^ 64 - 1)) % 2 ^ 64 = 2 ^ k - 1 := by omega
  simp only [signMaskLoop, hmask, Nat.and_pow_two_sub_one_eq_mod, Nat.mod_eq_of_lt hm,
    ne_eq, not_true_eq_false, if_false]

theorem signMaskLoop_continue (fuel m k : Nat) (hk : k + 7 ≤ 63) (hm : 2 ^ k ≤ m) :
    signMaskLoop (fuel + 1) m (2 ^ k) = signMaskLoop fuel m (2 ^ (k + 7)) := by
  have h1 : 1 ≤ 2 ^ k := Nat.one_le_two_pow
  have h2 : 2 ^ k < 2 ^ 64 := Nat.pow_lt_pow_right (by norm_num) (by omega)
  have h3 : 2 ^ (k + 7) < 2 ^ 64 := Nat.pow_lt_pow_right (by norm_num) (by omega)
  have hmask : (2 ^ k + (2 ^ 64 - 1)) % 2 ^ 64 = 2 ^ k - 1 := by omega
  have hne : m % 2 ^ k ≠ m := by
    have := Nat.mod_lt m (show 0 < 2 ^ k by omega)
    omega
  have hshift : (2 ^ k <<< 7) % 2 ^ 64 = 2 ^ (k + 7) := by
    rw [Nat.shiftLeft_eq, ← Nat.pow_add, Nat.mod_eq_of_lt h3]
  simp only [signMaskLoop, hmask, Nat.and_pow_two_sub_one_eq_mod, ne_eq, hne,
    not_false_eq_true, if_true, hshift]

/-- The sign-mask search started at the threshold of `j + 1` groups stops at
the threshold of `n + 1` groups, the least one above the magnitude. -/
theorem signMaskLoop_from (d : Nat) : ∀ (j n fuel m : Nat), n = j + d → n ≤ 8 →
    m < 2 ^ (7 * n + 6) → (j < n → 2 ^ (7 * n - 1) ≤ m) → d < fuel →
    signMaskLoop fuel m (2 ^ (7 * j + 6)) = some (2 ^ (7 * n + 6)) := by
  induction d with
  | zero =>
    intro j n fuel m hn hn8 hm _ hf
    obtain ⟨f, rfl⟩ : ∃ f, fuel = f + 1 := ⟨fuel - 1, by omega⟩
    have : n = j := by omega
    subst this
    exact signMaskLoop_exit f m _ (by omega) hm
  | succ d ih =>
    intro j n fuel m hn hn8 hm hlow hf
    obtain ⟨f, rfl⟩ : ∃ f, fuel = f + 1 := ⟨fuel - 1, by omega⟩
    have hle : 2 ^ (7 * j + 6) ≤ m := by
      have h1 : 2 ^ (7 * j + 6) ≤ 2 ^ (7 * n - 1) := Nat.pow_le_pow_right (by norm_num) (by omega)
      have h2 := hlow (by omega)
      omega
    rw [signMaskLoop_continue f m _ (by omega) hle]
    have := ih (j + 1) n f m (by omega) hn8 hm (fun _ => hlow (by omega)) (by omega)
    rw [show 7 * (j + 1) + 6 = 7 * j + 6 + 7 by ring] at this
    exact this

theorem signMaskLoop_start (n m : Nat) (hn8 : n ≤ 8) (hm : m < 2 ^ (7 * n + 6))
    (hlow : 0 < n → 2 ^ (7 * n - 1) ≤ m) :
    signMaskLoop 64 m 0x40 = some (2 ^ (7 * n + 6)) := by
  have := signMaskLoop_from n 0 n 64 m (by omega) hn8 hm hlow (by omega)
  simpa using this

theorem emitLoop_zero (fuel m : Nat) (w : IWriter) :
    emitLoop (fuel + 1) m 0 w = some (true, w) := by
  simp [emitLoop]

/-- The emit loop writes the groups of the magnitude with the sign flag glued on
at the threshold. -/
theorem emitLoop_groups (n : Nat) : ∀ (m sign fuel : Nat) (w : IWriter), w.room = none →
    m < 2 ^ (7 * n + 6) → sign ≤ 1 → n + 2 ≤ fuel →
    emitLoop fuel (m + sign * 2 ^ (7 * n + 6)) (2 ^ (7 * n + 7) - 1) w =
      some (true, w.append (groups n m sign)) := by
  induction n with
  | zero =>
    intro m sign fuel w hw hm hs hf
    obtain ⟨f, rfl⟩ : ∃ f, fuel = f + 2 := ⟨fuel - 2, by omega⟩
    have hm' : m < 64 := by simpa using hm
    have hb : (m + sign * 64) % 128 = m % 64 + 64 * sign := by omega
    simp only [emitLoop, Nat.mul_zero, Nat.zero_add, Nat.reducePow, Nat.reduceSub, ne_eq,
      OfNat.ofNat_ne_zero, not_false_eq_true, if_true, and_7f, Nat.reduceShiftRight,
      not_true_eq_false, if_false, hb, IWriter.write_unbounded w hw, groups]
  | succ n ih =>
    intro m sign fuel w hw hm hs hf
    obtain ⟨f, rfl⟩ : ∃ f, fuel = f + 1 := ⟨fuel - 1, by omega⟩
    have hq : 1 ≤ 2 ^ (7 * n + 6) := Nat.one_le_two_pow
    have e1 : 2 ^ (7 * (n + 1) + 6) = 128 * 2 ^ (7 * n + 6) := by ring
    have hq7 : 1 ≤ 2 ^ (7 * n + 7) := Nat.one_le_two_pow
    have e2 : 2 ^ (7 * (n + 1) + 7) = 128 * 2 ^ (7 * n + 7) := by ring
    have hmask : 128 * 2 ^ (7 * n + 7) - 1 ≠ 0 := by omega
    have hmask' : (128 * 2 ^ (7 * n + 7) - 1) >>> 7 = 2 ^ (7 * n + 7) - 1 := by
      rw [Nat.shiftRight_eq_div_pow]; omega
    have hmask2 : 2 ^ (7 * n + 7) - 1 ≠ 0 := by
      have : 2 ^ (7 * n + 7) = 2 * 2 ^ (7 * n + 6) := by ring
      omega
    have hsq : sign * (128 * 2 ^ (7 * n + 6)) = 128 * (sign * 2 ^ (7 * n + 6)) := by ring
    have hb : (m + sign * (128 * 2 ^ (7 * n + 6))) % 128 = m % 128 := by
      rw [hsq]; omega
    have hd : (m + sign * (128 * 2 ^ (7 * n + 6))) >>> 7 = m / 128 + sign * 2 ^ (7 * n + 6) := by
      rw [Nat.shiftRight_eq_div_pow, hsq]; omega
    have hor : m % 128 ||| 0x80 = m % 128 + 128 := or_80 _ (Nat.mod_lt _ (by norm_num))
    rw [e1, e2]
    simp only [emitLoop, ne_eq, hmask, not_false_eq_true, if_true, and_7f, hb, hd, hmask',
      hmask2, hor, IWriter.write_unbounded w hw]
    rw [e1] at hm
    rw [ih (m / 128) sign f _ (IWriter.append_room w hw _) (by omega) hs (by omega),
      IWriter.append_append]
    simp [groups]

/-- Every magnitude below `2 ^ 62` has a least group count. -/
theorem exists_groupCount (m : Nat) (hm : m < 2 ^ 62) :
    ∃ n, n ≤ 8 ∧ m < 2 ^ (7 * n + 6) ∧ (0 < n → 2 ^ (7 * n - 1) ≤ m) := by
  by_cases h0 : m < 2 ^ 6
  · exact ⟨0, by omega, by simpa using h0, by omega⟩
  by_cases h1 : m < 2 ^ 13
  · exact ⟨1, by omega, by simpa using h1, fun _ => by simpa using h0⟩
  by_cases h2 : m < 2 ^ 20
  · exact ⟨2, by omega, by simpa using h2, fun _ => by simpa using h1⟩
  by_cases h3 : m < 2 ^ 27
  · exact ⟨3, by omega, by simpa using h3, fun _ => by simpa using h2⟩
  by_cases h4 : m < 2 ^ 34
  · exact ⟨4, by omega, by simpa using h4, fun _ => by simpa using h3⟩
  by_cases h5 : m < 2 ^ 41
  · exact ⟨5, by omega, by simpa using h5, fun _ => by simpa using h4⟩
  by_cases h6 : m < 2 ^ 48
  · exact ⟨6, by omega, by simpa using h6, fun _ => by simpa using h5⟩
  by_cases h7 : m < 2 ^ 55
  · exact ⟨7, by omega, by simpa using h7, fun _ => by simpa using h6⟩
  · exact ⟨8, by omega, by simpa using hm, fun _ => by simpa using h7⟩

/-- Closed form of the encoder: with magnitude `m` below `2 ^ 62`, sign `sign`
and least group count `n + 1`, an unbounded writer receives `groups n m sign`. -/
theorem serializeValue_groups (T : IntType) (w : IWriter) (hw : w.room = none) (v : Int)
    (n m sign : Nat) (hms : magnitudeSign T v = (m, sign)) (hs : sign ≤ 1) (hn8 : n ≤ 8)
    (hm : m < 2 ^ (7 * n + 6)) (hlow : 0 < n → 2 ^ (7 * n - 1) ≤ m) :
    serializeValue T w v = some (true, w.append (groups n m sign)) := by
  have hq : 1 ≤ 2 ^ (7 * n + 6) := Nat.one_le_two_pow
  have hq64 : 2 ^ (7 * n + 6) < 2 ^ 64 := Nat.pow_lt_pow_right (by norm_num) (by omega)
  have hsm : (sign * 2 ^ (7 * n + 6)) % 2 ^ 64 = sign * 2 ^ (7 * n + 6) := by
    apply Nat.mod_eq_of_lt
    rcases Nat.le_one_iff_eq_zero_or_eq_one.mp hs with h | h <;> subst h <;> omega
  have hor : m ||| sign * 2 ^ (7 * n + 6) = m + sign * 2 ^ (7 * n + 6) := by
    have := Nat.mul_add_lt_is_or hm sign
    rw [Nat.lor_comm, Nat.mul_comm sign, ← this]; omega
  have hmask : (2 ^ (7 * n + 6) + (2 ^ 64 - 1)) % 2 ^ 64 = 2 ^ (7 * n + 6) - 1 := by omega
  have hfull : 2 ^ (7 * n + 6) ||| (2 ^ (7 * n + 6) - 1) = 2 ^ (7 * n + 7) - 1 := by
    have := Nat.mul_add_lt_is_or (show 2 ^ (7 * n + 6) - 1 < 2 ^ (7 * n + 6) by omega) 1
    rw [Nat.mul_one] at this
    rw [← this, show 2 ^ (7 * n + 7) = 2 * 2 ^ (7 * n + 6) by ring]
    generalize 2 ^ (7 * n + 6) = q at hq ⊢
    omega
  simp only [serializeValue, hms, signMaskLoop_start n m hn8 hm hlow, hsm, hor, hmask, hfull]
  exact emitLoop_groups n m sign 64 w hw hm hs (by omega)

/-- Past the last threshold the sign mask is shifted out of the 64 bits and the
search stops at zero. -/
theorem signMaskLoop_overflow (m : Nat) (hlow : 2 ^ 62 ≤ m) (hm : m < 2 ^ 64) :
    signMaskLoop 64 m 0x40 = some 0 := by
  have h6 : signMaskLoop 64 m (2 ^ 6) = signMaskLoop 56 m (2 ^ 62) := by
    rw [signMaskLoop_continue 63 m 6 (by omega) (by omega),
      signMaskLoop_continue 62 m 13 (by omega) (by omega),
      signMaskLoop_continue 61 m 20 (by omega) (by omega),
      signMaskLoop_continue 60 m 27 (by omega) (by omega),
      signMaskLoop_continue 59 m 34 (by omega) (by omega),
      signMaskLoop_continue 58 m 41 (by omega) (by omega),
      signMaskLoop_continue 57 m 48 (by omega) (by omega),
      signMaskLoop_continue 56 m 55 (by omega) (by omega)]
  have hne : m % 2 ^ 62 ≠ m := by
    have := Nat.mod_lt m (show 0 < 2 ^ 62 by norm_num)
    omega
  have hmask : (2 ^ 62 + (2 ^ 64 - 1)) % 2 ^ 64 = 2 ^ 62 - 1 := by norm_num
  have hshift : (2 ^ 62 <<< 7) % 2 ^ 64 = 0 := by norm_num [Nat.shiftLeft_eq]
  have hmask0 : (0 + (2 ^ 64 - 1)) % 2 ^ 64 = 2 ^ 64 - 1 := by norm_num
  have hall : m % 2 ^ 64 = m := Nat.mod_eq_of_lt hm
  have key : signMaskLoop 64 m (2 ^ 6) = some 0 := by
    rw [h6]
    simp only [signMaskLoop, hmask, Nat.and_pow_two_sub_one_eq_mod, ne_eq, hne,
      not_false_eq_true, if_true, hshift, hmask0, hall, not_true_eq_false, if_false]
  simpa using key

/-- The sign-mask search terminates for every 64-bit magnitude. -/
theorem signMaskLoop_total (m : Nat) (hm : m < 2 ^ 64) :
    ∃ signMask, signMaskLoop 64 m 0x40 = some signMask ∧ signMask < 2 ^ 63 := by
  by_cases h : m < 2 ^ 62
  · obtain ⟨n, hn8, hlt, hlow⟩ := exists_groupCount m h
    exact ⟨_, signMaskLoop_start n m hn8 hlt hlow,
      Nat.pow_lt_pow_right (by norm_num) (by omega)⟩
  · exact ⟨0, signMaskLoop_overflow m (by omega) hm, by norm_num⟩

/-- The emit loop terminates: `fuel + 1` iterations are enough for a mask below
`128 ^ fuel`. -/
theorem emitLoop_total (fuel : Nat) : ∀ (magnitude signMask : Nat) (w : IWriter),
    signMask < 128 ^ fuel → ∃ r, emitLoop (fuel + 1) magnitude signMask w = some r := by
  induction fuel with
  | zero =>
    intro magnitude signMask w h
    have h0 : signMask = 0 := by simpa using h
    subst h0
    exact ⟨_, emitLoop_zero 0 magnitude w⟩
  | succ fuel ih =>
    intro magnitude signMask w h
    by_cases h0 : signMask = 0
    · subst h0
      exact ⟨_, emitLoop_zero _ magnitude w⟩
    · have hs : signMask >>> 7 < 128 ^ fuel := by
        rw [Nat.shiftRight_eq_div_pow, Nat.div_lt_iff_lt_mul (by norm_num)]
        rw [Nat.pow_succ] at h
        simpa using h
      rw [emitLoop]
      simp only [ne_eq, h0, not_false_eq_true, if_true]
      split
      · exact ⟨_, rfl⟩
      · exact ih _ _ _ hs

/-- The function `serializeValue` returns on every input: the fuel given to
its two loops is never used up. -/
theorem serializeValue_total (T : IntType) (w : IWriter) (v : Int) :
    ∃ r, serializeValue T w v = some r := by
  have hmag : (magnitudeSign T v).1 < 2 ^ 64 := by
    unfold magnitudeSign toU64
    split <;> simp only <;> omega
  obtain ⟨signMask, hs, hlt⟩ := signMaskLoop_total _ hmag
  have hfull : signMask ||| ((signMask + (2 ^ 64 - 1)) % 2 ^ 64) < 128 ^ 63 := by
    have h1 : signMask < 2 ^ 64 := by omega
    have h2 : (signMask + (2 ^ 64 - 1)) % 2 ^ 64 < 2 ^ 64 := Nat.mod_lt _ (by norm_num)
    have := Nat.or_lt_two_pow h1 h2
    omega
  simp only [serializeValue, hs]
  exact emitLoop_total 63 _ _ w hfull

/-! ## The decoder -/

theorem toU64_shlInt (x sh : Nat) (hsh : sh < 32) (hx : x * 2 ^ sh < 2 ^ 31) :
    toU64 (shlInt x sh) = x * 2 ^ sh := by
  unfold toU64 shlInt IntType.wrap IntType.int
  rw [Nat.mod_eq_of_lt hsh]
  generalize x * 2 ^ sh = y at hx ⊢
  simp only [if_true, Nat.reduceSub, Nat.reducePow] at hx ⊢
  omega

theorem deserializeLoop_continue (T : IntType) (b : Byte) (r : IReader) (acc sh : Nat)
    (prior : Int) (hb : 128 ≤ b.val) :
    deserializeLoop T (b :: r) acc sh prior =
      deserializeLoop T r (acc ||| toU64 (shlInt (b.val % 128) sh)) ((sh + 7) % 2 ^ 32) prior := by
  have := (byte_and_80 b).mpr hb
  simp only [deserializeLoop, this, if_true, and_7f, ne_eq, not_false_eq_true]

theorem deserializeLoop_last (T : IntType) (b : Byte) (r : IReader) (acc sh : Nat)
    (prior : Int) (hb : b.val < 128) :
    deserializeLoop T (b :: r) acc sh prior =
      (true, r, valueOf T (acc ||| toU64 (shlInt (b.val % 64) sh)) (decide (b.val / 64 % 2 = 1))) := by
  have h80 : ¬ (b.val &&& 0x80 ≠ 0) := by rw [byte_and_80]; omega
  have h40 : decide (b.val &&& 0x40 ≠ 0) = decide (b.val / 64 % 2 = 1) := by
    rw [decide_eq_decide]; exact byte_and_40 b
  simp only [deserializeLoop, h80, if_false, and_3f, h40]

/-- Decoding `groups n m sign` continues an accumulation: as long as every
shifted group stays below `2 ^ 31`, the magnitude `m` is added at the current
shift and the input after the groups is left unread. -/
theorem deserializeLoop_groups (T : IntType) (n : Nat) : ∀ (m sign acc sh : Nat) (rest : IReader)
    (prior : Int), m < 2 ^ (7 * n + 6) → sign ≤ 1 → acc < 2 ^ sh → sh + 7 * n ≤ 28 →
    m * 2 ^ sh < 2 ^ 31 →
    deserializeLoop T (groups n m sign ++ rest) acc sh prior =
      (true, rest, valueOf T (acc + m * 2 ^ sh) (decide (sign = 1))) := by
  induction n with
  | zero =>
    intro m sign acc sh rest prior hm hs hacc hsh hfit
    have hm' : m < 64 := by simpa using hm
    have hval : (Fin.ofNat (m % 64 + 64 * sign) : Byte).val = m + 64 * sign := by
      simp only [Fin.ofNat, Nat.reduceAdd]; omega
    have hor := Nat.mul_add_lt_is_or hacc m
    rw [groups, List.singleton_append, deserializeLoop_last T _ _ _ _ _ (by rw [hval]; omega), hval,
      show (m + 64 * sign) % 64 = m by omega, toU64_shlInt m sh (by omega) hfit,
      Nat.lor_comm, Nat.mul_comm m, ← hor, Nat.add_comm]
    have hd : decide ((m + 64 * sign) / 64 % 2 = 1) = decide (sign = 1) := by
      rw [decide_eq_decide]; omega
    rw [hd]
  | succ n ih =>
    intro m sign acc sh rest prior hm hs hacc hsh hfit
    have e1 : 2 ^ (7 * (n + 1) + 6) = 128 * 2 ^ (7 * n + 6) := by ring
    have e2 : 2 ^ (sh + 7) = 128 * 2 ^ sh := by ring
    rw [e1] at hm
    have hval : (Fin.ofNat (m % 128 + 128) : Byte).val = m % 128 + 128 := by
      simp only [Fin.ofNat, Nat.reduceAdd]; omega
    have hsplit : m * 2 ^ sh = (m % 128) * 2 ^ sh + (m / 128) * (128 * 2 ^ sh) := by
      conv_lhs => rw [← Nat.mod_add_div m 128]
      ring
    have hlow : (m % 128) * 2 ^ sh < 2 ^ 31 := by
      have := Nat.zero_le ((m / 128) * (128 * 2 ^ sh)); omega
    have hlt128 : (m % 128) * 2 ^ sh < 128 * 2 ^ sh :=
      Nat.mul_lt_mul_of_pos_right (Nat.mod_lt _ (by norm_num)) (by positivity)
    have hor := Nat.mul_add_lt_is_or hacc (m % 128)
    have hacc' : 2 ^ sh * (m % 128) + acc < 128 * 2 ^ sh := by
      have h127 : 2 ^ sh * (m % 128) ≤ 2 ^ sh * 127 :=
        Nat.mul_le_mul_left _ (by have := Nat.mod_lt m (show 0 < 128 by norm_num); omega)
      generalize 2 ^ sh * (m % 128) = t at h127
      generalize 2 ^ sh = P at hacc h127
      omega
    rw [groups, List.cons_append, deserializeLoop_continue T _ _ _ _ _ (by rw [hval]; omega), hval,
      show (m % 128 + 128) % 128 = m % 128 by omega, toU64_shlInt _ sh (by omega) hlow,
      show (sh + 7) % 2 ^ 32 = sh + 7 by omega, Nat.lor_comm, Nat.mul_comm (m % 128), ← hor,
      ih (m / 128) sign _ (sh + 7) rest prior (by omega) hs (by rw [e2]; exact hacc') (by omega)
        (by rw [e2]; omega)]
    congr 3
    rw [e2]; rw [hsplit]; ring

theorem magnitudeSign_small (T : IntType) (hT : T.Supported) (v : Int) (hv : T.InRange v)
    (hsmall : v.natAbs < 2 ^ 31) :
    magnitudeSign T v = (v.natAbs, if v < 0 then 1 else 0) := by
  obtain ⟨bits, signed⟩ := T
  simp only [IntType.Supported] at hT
  simp only [IntType.InRange, IntType.minVal, IntType.maxVal] at hv
  rcases hT with h | h | h <;> subst h <;> cases signed <;>
    simp only [magnitudeSign, toU64, IntType.wrap, IntType.promote, IntType.int, Nat.reduceLT,
      Nat.reduceSub, Nat.reducePow, if_true, if_false, Bool.false_eq_true, ge_iff_le,
      Nat.cast_ofNat] at hv ⊢ <;>
    split_ifs <;> simp only [Prod.mk.injEq, and_true] <;> omega

theorem valueOf_small (T : IntType) (hT : T.Supported) (v : Int) (hv : T.InRange v)
    (hsmall : v.natAbs < 2 ^ 31) :
    valueOf T v.natAbs (decide ((if v < 0 then 1 else 0) = 1)) = v := by
  obtain ⟨bits, signed⟩ := T
  simp only [IntType.Supported] at hT
  simp only [IntType.InRange, IntType.minVal, IntType.maxVal] at hv
  by_cases hneg : v < 0
  · rcases hT with h | h | h <;> subst h <;> cases signed <;>
      simp only [valueOf, IntType.wrap, IntType.promote, IntType.int, Nat.reduceLT,
        Nat.reduceSub, Nat.reducePow, if_true, if_false, Bool.false_eq_true,
        Nat.cast_ofNat, hneg, decide_True] at hv ⊢ <;>
      omega
  · rcases hT with h | h | h <;> subst h <;> cases signed <;>
      simp only [valueOf, IntType.wrap, IntType.promote, IntType.int, Nat.reduceLT,
        Nat.reduceSub, Nat.reducePow, if_true, if_false, Bool.false_eq_true,
        Nat.cast_ofNat, hneg, decide_False, OfNat.zero_ne_ofNat, Nat.zero_ne_one] at hv ⊢ <;>
      omega

/-- Closed form of the encoder for a value of magnitude below `2 ^ 31`: at most
five groups. -/
theorem encode_small (T : IntType) (hT : T.Supported) (v : Int) (hv : T.InRange v)
    (hsmall : v.natAbs < 2 ^ 31) :
    ∃ n, n ≤ 4 ∧ v.natAbs < 2 ^ (7 * n + 6) ∧
      ∀ w : IWriter, w.room = none →
        serializeValue T w v =
          some (true, w.append (groups n v.natAbs (if v < 0 then 1 else 0))) := by
  obtain ⟨n, hn8, hm, hlow⟩ := exists_groupCount v.natAbs (by omega)
  have hn4 : n ≤ 4 := by
    by_contra hcon
    have h1 : 2 ^ 34 ≤ 2 ^ (7 * n - 1) := Nat.pow_le_pow_right (by norm_num) (by omega)
    have h2 := hlow (by omega)
    omega
  refine ⟨n, hn4, hm, fun w hw => ?_⟩
  exact serializeValue_groups T w hw v n _ _ (magnitudeSign_small T hT v hv hsmall)
    (by split_ifs <;> omega) hn8 hm hlow

/-- Round trip of the integer codec on values of magnitude below `2 ^ 31`. -/
theorem roundtrip_small (T : IntType) (hT : T.Supported) (v : Int) (hv : T.InRange v)
    (hsmall : v.natAbs < 2 ^ 31) :
    (∀ w : IWriter, w.room = none → serializeValue T w v = some (true, w.append (encode T v))) ∧
      ∀ (rest : IReader) (prior : Int),
        deserializeValue T (encode T v ++ rest) prior = (true, rest, v) := by
  obtain ⟨n, hn4, hm, hser⟩ := encode_small T hT v hv hsmall
  have henc : encode T v = groups n v.natAbs (if v < 0 then 1 else 0) := by
    simp only [encode, hser IWriter.empty IWriter.empty_room, IWriter.empty_append_bytes]
  refine ⟨fun w hw => by rw [henc]; exact hser w hw, fun rest prior => ?_⟩
  rw [henc, deserializeValue,
    deserializeLoop_groups T n v.natAbs _ 0 0 rest prior hm (by split_ifs <;> omega)
      (by norm_num) (by omega) (by omega),
    Nat.zero_add, Nat.pow_zero, Nat.mul_one, valueOf_small T hT v hv hsmall]

/-- The length prefix of strings and vectors: written at `size_t`, read back at
`uint64_t`. -/
theorem length_roundtrip (len : Nat) (hlen : len < 2 ^ 31) :
    (∀ w : IWriter, w.room = none →
        serializeValue IntType.size_t w len =
          some (true, w.append (encode IntType.size_t len))) ∧
      ∀ (rest : IReader) (prior : Int),
        deserializeValue IntType.uint64_t (encode IntType.size_t len ++ rest) prior =
          (true, rest, (len : Int)) := by
  have hr : IntType.size_t.InRange (len : Int) := by
    simp only [IntType.InRange, IntType.minVal, IntType.maxVal, IntType.size_t,
      Bool.false_eq_true, if_false, Nat.reducePow, Nat.cast_ofNat]
    omega
  exact roundtrip_small IntType.size_t (by decide) len hr (by simpa using hlen)

end serialization.SmvIntSerializer

namespace serialization

/-! ## Scalar codecs round-trip -/

theorem Serializer.bool_roundTrips (b : Bool) : Serializer.bool.RoundTrips b := by
  have henc : Serializer.bool.encode b = [if b then 0x01 else 0x00] := by
    cases b <;> rfl
  constructor
  · intro w hw
    rw [henc]
    simp only [Serializer.bool, Serializer_bool.serialize, IWriter.write_unbounded w hw]
  · intro prior rest
    rw [henc]
    cases b <;>
      simp [Serializer.bool, Serializer_bool.deserialize, IReader.read]

theorem Serializer.char_roundTrips (b : Byte) : Serializer.char.RoundTrips b := by
  have henc : Serializer.char.encode b = [b] := rfl
  constructor
  · intro w hw
    rw [henc]
    simp only [Serializer.char, CharSerializer.serialize, IWriter.write_unbounded w hw]
  · intro prior rest
    rw [henc]
    simp [Serializer.char, CharSerializer.deserialize, IReader.read]

/-! ## Strings -/

theorem Serializer_string.readLoop_string_append (s : List Byte) : ∀ (acc : List Byte) (rest : IReader),
    Serializer_string.readLoop s.length (s ++ rest) acc = (true, rest, acc ++ s) := by
  induction s with
  | nil => intro acc rest; simp [Serializer_string.readLoop]
  | cons b s ih =>
    intro acc rest
    simp only [List.length_cons, Serializer_string.readLoop, List.cons_append,
      IReader.read_one_cons, ih, List.append_assoc, List.singleton_append, List.nil_append]

/-! ## Vectors -/

theorem Serializer_vector.writeLoop_append {T : Type} (elem : Serializer T) (xs : List T) :
    ∀ w : IWriter, w.room = none → (∀ x ∈ xs, elem.RoundTrips x) →
      Serializer_vector.writeLoop elem xs w =
        some (true, w.append (xs.map elem.encode).flatten) := by
  induction xs with
  | nil => intro w _ _; simp [Serializer_vector.writeLoop, IWriter.append_nil]
  | cons x xs ih =>
    intro w hw hrt
    have hx := (hrt x (List.mem_cons_self x xs)).1 w hw
    simp only [Serializer_vector.writeLoop, hx, List.map_cons, List.flatten_cons]
    rw [ih _ (IWriter.append_room w hw _) (fun y hy => hrt y (List.mem_cons_of_mem x hy)),
      IWriter.append_append]

theorem Serializer_vector.readLoop_vector_append {T : Type} (elem : Serializer T) (init : T)
    (xs : List T) : ∀ (acc : List T) (rest : IReader), (∀ x ∈ xs, elem.RoundTrips x) →
      Serializer_vector.readLoop elem init xs.length ((xs.map elem.encode).flatten ++ rest) acc =
        (true, rest, acc ++ xs) := by
  induction xs with
  | nil => intro acc rest _; simp [Serializer_vector.readLoop]
  | cons x xs ih =>
    intro acc rest hrt
    have hx := (hrt x (List.mem_cons_self x xs)).2 init ((xs.map elem.encode).flatten ++ rest)
    simp only [List.length_cons, Serializer_vector.readLoop, List.map_cons, List.flatten_cons,
      List.append_assoc, hx]
    rw [ih _ rest (fun y hy => hrt y (List.mem_cons_of_mem x hy))]
    simp

/-- C1, evaluated where it fails: the `long long` value `2 ^ 31` is written as
`80 80 80 80 08`, and `deserializeValue`, which shifts each group as an `int`,
reads those bytes back as `-2 ^ 31`.  Moreover `-2 ^ 62` and `2 ^ 62` are
written as the same ten bytes, because the sign flag is lost when the sign
mask overflows to zero, so decoding cannot give back both; `-2 ^ 62` is not
what the decoder returns. -/
theorem SmvIntSerializer.roundtrip_fails_at_64_bits :
    IntType.longLong.InRange (2 ^ 31) ∧
      SmvIntSerializer.serializeValue IntType.longLong IWriter.empty (2 ^ 31) =
        some (true, ⟨[0x80, 0x80, 0x80, 0x80, 0x08], none⟩) ∧
      SmvIntSerializer.deserializeValue IntType.longLong [0x80, 0x80, 0x80, 0x80, 0x08] 0 =
        (true, [], -2 ^ 31) ∧
      IntType.longLong.InRange (-2 ^ 62) ∧
      SmvIntSerializer.serializeValue IntType.longLong IWriter.empty (-2 ^ 62) =
        SmvIntSerializer.serializeValue IntType.longLong IWriter.empty (2 ^ 62) ∧
      SmvIntSerializer.deserializeValue IntType.longLong
        (SmvIntSerializer.encode IntType.longLong (-2 ^ 62)) 0 ≠ (true, [], -2 ^ 62) := by
  decide

/-- C2: at every supported width, for every representable value `v` with
`|v| < 2 ^ 31` and every trailing input `rest`, `serializeValue` succeeds on an
unbounded writer, appending `encode T v`, and `deserializeValue` run on those
bytes followed by `rest` succeeds, stores `v` whatever the output held, and
leaves exactly `rest` unread. -/
theorem SmvIntSerializer.small_roundtrip_self_delimiting (T : IntType) (hT : T.Supported)
    (v : Int) (hv : T.InRange v) (hsmall : v.natAbs < 2 ^ 31) (w : IWriter)
    (hw : w.room = none) (rest : IReader) (prior : Int) :
    SmvIntSerializer.serializeValue T w v =
        some (true, w.append (SmvIntSerializer.encode T v)) ∧
      SmvIntSerializer.deserializeValue T (SmvIntSerializer.encode T v ++ rest) prior =
        (true, rest, v) := by
  have h := SmvIntSerializer.roundtrip_small T hT v hv hsmall
  exact ⟨h.1 w hw, h.2 rest prior⟩

/-- Witness of C2: `-1` as a `short`, followed by a byte that looks like a
sign-flagged terminal group. -/
theorem SmvIntSerializer.small_roundtrip_self_delimiting_witness :
    SmvIntSerializer.serializeValue IntType.short IWriter.empty (-1) =
        some (true, IWriter.empty.append (SmvIntSerializer.encode IntType.short (-1))) ∧
      SmvIntSerializer.deserializeValue IntType.short
        (SmvIntSerializer.encode IntType.short (-1) ++ [0x40]) 7 = (true, [0x40], -1) :=
  SmvIntSerializer.small_roundtrip_self_delimiting IntType.short (by decide) (-1) (by decide)
    (by decide) IWriter.empty rfl [0x40] 7

/-- C7: for every byte string `s` shorter than `2 ^ 31`, `serialize` on an
unbounded writer appends the SmvInt encoding of `s.length` followed by exactly
the bytes of `s`, and `deserialize` run on that output followed by any `rest`
succeeds, returns `s` whatever the output string held, and leaves `rest`
unread. -/
theorem Serializer_string.string_roundtrip (s : List Byte) (hs : s.length < 2 ^ 31) (w : IWriter)
    (hw : w.room = none) (rest : IReader) (prior : List Byte) :
    Serializer_string.serialize w s =
        some (true, w.append (SmvIntSerializer.encode IntType.size_t s.length ++ s)) ∧
      Serializer_string.deserialize
        (SmvIntSerializer.encode IntType.size_t s.length ++ s ++ rest) prior =
        (true, rest, s) := by
  have h := SmvIntSerializer.length_roundtrip s.length hs
  constructor
  · simp only [Serializer_string.serialize, h.1 w hw, List.take_length,
      IWriter.write_unbounded _ (IWriter.append_room w hw _), IWriter.append_append]
  · simp only [Serializer_string.deserialize, List.append_assoc, h.2, Int.toNat_ofNat,
      Serializer_string.readLoop_string_append, List.nil_append]

/-- Witness of C7: a string holding `0x00`, `0x40`, `0x80` and the two-byte
UTF-8 sequence `C3 A9`. -/
theorem Serializer_string.string_roundtrip_witness :
    Serializer_string.serialize IWriter.empty [0x00, 0x40, 0x80, 0xC3, 0xA9] =
        some (true, IWriter.empty.append
          (SmvIntSerializer.encode IntType.size_t
            ([0x00, 0x40, 0x80, 0xC3, 0xA9] : List Byte).length ++
            [0x00, 0x40, 0x80, 0xC3, 0xA9])) ∧
      Serializer_string.deserialize
        (SmvIntSerializer.encode IntType.size_t
          ([0x00, 0x40, 0x80, 0xC3, 0xA9] : List Byte).length ++
          [0x00, 0x40, 0x80, 0xC3, 0xA9] ++ [0x01]) [0x55] =
        (true, [0x01], [0x00, 0x40, 0x80, 0xC3, 0xA9]) :=
  Serializer_string.string_roundtrip [0x00, 0x40, 0x80, 0xC3, 0xA9] (by decide) IWriter.empty rfl
    [0x01] [0x55]

/-- C8: for an element codec that round-trips on every element of `xs`, with
`xs` shorter than `2 ^ 31`, `serialize` on an unbounded writer appends the
SmvInt encoding of the element count followed by the encodings of the elements
in order, and `deserialize` run on that output (followed by any `rest`)
succeeds and leaves the output vector equal to `xs`, whatever it held. -/
theorem Serializer_vector.vector_roundtrip {T : Type} (elem : Serializer T) (init : T) (xs : List T)
    (hlen : xs.length < 2 ^ 31) (hrt : ∀ x ∈ xs, elem.RoundTrips x) (w : IWriter)
    (hw : w.room = none) (rest : IReader) (prior : List T) :
    Serializer_vector.serialize elem w xs =
        some (true, w.append (SmvIntSerializer.encode IntType.size_t xs.length ++
          (xs.map elem.encode).flatten)) ∧
      Serializer_vector.deserialize elem init
        (SmvIntSerializer.encode IntType.size_t xs.length ++ (xs.map elem.encode).flatten ++ rest)
        prior = (true, rest, xs) := by
  have h := SmvIntSerializer.length_roundtrip xs.length hlen
  constructor
  · simp only [Serializer_vector.serialize, h.1 w hw,
      Serializer_vector.writeLoop_append elem xs _ (IWriter.append_room w hw _) hrt,
      IWriter.append_append]
  · simp only [Serializer_vector.deserialize, List.append_assoc, h.2, Int.toNat_ofNat,
      Serializer_vector.readLoop_vector_append elem init xs [] rest hrt, List.nil_append]

/-- Witness of C8: a vector of three `bool`s. -/
theorem Serializer_vector.vector_roundtrip_witness :
    Serializer_vector.serialize Serializer.bool IWriter.empty [true, false, true] =
        some (true, IWriter.empty.append
          (SmvIntSerializer.encode IntType.size_t [true, false, true].length ++
            ([true, false, true].map Serializer.bool.encode).flatten)) ∧
      Serializer_vector.deserialize Serializer.bool false
        (SmvIntSerializer.encode IntType.size_t [true, false, true].length ++
          ([true, false, true].map Serializer.bool.encode).flatten ++ [0x09]) [false] =
        (true, [0x09], [true, false, true]) :=
  Serializer_vector.vector_roundtrip Serializer.bool false [true, false, true] (by decide)
    (fun x _ => Serializer.bool_roundTrips x) IWriter.empty rfl [0x09] [false]

/-- C9, evaluated where it fails: for `1.0f` the serializer writes one byte,
`00`, not the four bytes `00 00 80 3f`; for the `double` `1.0` it writes one
byte, not eight; and `deserialize` consumes one byte of a four-byte input. -/
theorem FloatSerializer.writes_one_byte :
    FloatSerializer.serialize FloatType.float IWriter.empty reflection.Sample.oneF =
        (true, ⟨[0x00], none⟩) ∧
      FloatSerializer.serialize FloatType.double IWriter.empty reflection.Sample.oneD =
        (true, ⟨[0x00], none⟩) ∧
      FloatSerializer.deserialize FloatType.float reflection.Sample.oneF [0, 0, 0, 0] =
        (true, [0x00, 0x80, 0x3f], [0, 0, 0, 0]) := by
  decide

/-- C10, evaluated where it fails: decoding what `serialize` wrote for `1.0f`
into a variable holding `0.0f` succeeds and leaves `0.0f` (all bytes zero) in
it, not `1.0f`. -/
theorem FloatSerializer.float_roundtrip_fails :
    FloatSerializer.deserialize FloatType.float
        (FloatSerializer.serialize FloatType.float IWriter.empty reflection.Sample.oneF).2.bytes
        [0, 0, 0, 0] = (true, [], [0, 0, 0, 0]) ∧
      ([0, 0, 0, 0] : List Byte) ≠ reflection.Sample.oneF := by
  decide

end serialization

namespace serialization.InstanceSerializer

open reflection

variable {V : Type}

/-- Both loops over the fields from index `i` on: the writer receives some
bytes `bs`, and reading `bs` back restores the fields, given that the fields
before `i` already hold their serialized values. -/
theorem loops_roundtrip (fields : ReflectedFields V) (mem : Memory V)
    (hget : ∀ i, i < fields.count → ∃ f, fields.get i = some f)
    (hrt : ∀ i f, fields.get i = some f → f.refl.RoundTrips (mem f.field)) (todo : Nat) :
    ∀ i, i + todo = fields.count →
      ∃ bs : List Byte,
        (∀ w : IWriter, w.room = none →
          serializeLoop fields mem todo i w = some (true, w.append bs)) ∧
        ∀ (rest : IReader) (mem0 : Memory V),
          (∀ k f, k < i → fields.get k = some f → mem0 f.field = mem f.field) →
          ∃ mem1, deserializeLoop fields todo i (bs ++ rest) mem0 = some (true, rest, mem1) ∧
            ∀ k f, k < fields.count → fields.get k = some f → mem1 f.field = mem f.field := by
  induction todo with
  | zero =>
    intro i hi
    refine ⟨[], fun w _ => by simp [serializeLoop, IWriter.append_nil], fun rest mem0 h0 => ?_⟩
    exact ⟨mem0, by simp [deserializeLoop], fun k f hk hf => h0 k f (by omega) hf⟩
  | succ todo ih =>
    intro i hi
    obtain ⟨f, hf⟩ := hget i (by omega)
    obtain ⟨bs, hser, hdes⟩ := ih (i + 1) (by omega)
    have hr := hrt i f hf
    refine ⟨f.refl.encode (mem f.field) ++ bs, fun w hw => ?_, fun rest mem0 h0 => ?_⟩
    · simp only [serializeLoop, hf, Field.serialize, hr.1 w hw]
      rw [hser _ (IWriter.append_room w hw _), IWriter.append_append]
    · have hstep : ∀ k g, k < i + 1 → fields.get k = some g →
          Function.update mem0 f.field (mem f.field) g.field = mem g.field := by
        intro k g hk hg
        by_cases hfg : g.field = f.field
        · rw [hfg, Function.update_same]
        · rw [Function.update_noteq hfg]
          have hki : k < i := by
            rcases Nat.lt_succ_iff_lt_or_eq.mp hk with h | h
            · exact h
            · subst h; rw [hf] at hg; cases hg; exact absurd rfl hfg
          exact h0 k g hki hg
      obtain ⟨mem1, h1, h2⟩ := hdes rest _ hstep
      refine ⟨mem1, ?_, h2⟩
      simp only [deserializeLoop, hf, Field.deserialize, List.append_assoc, hr.2]
      exact h1

theorem ReflectedFields_get_lt (inst : Addr) (fs : List (FieldSet_t V)) (i : Nat) (f : reflection.Field V)
    (h : (ReflectedFields.new inst fs).get i = some f) : i < (ReflectedFields.new inst fs).count := by
  rw [ReflectedFields.count_new]
  by_contra hcon
  have := (ReflectedFields.walk_none_iff fs inst i).mpr (by omega)
  simp only [ReflectedFields.get, ReflectedFields.new] at h
  rw [this] at h
  cases h

theorem ReflectedFields_get_some (inst : Addr) (fs : List (FieldSet_t V)) (i : Nat)
    (h : i < (ReflectedFields.new inst fs).count) :
    ∃ f, (ReflectedFields.new inst fs).get i = some f := by
  rw [ReflectedFields.count_new] at h
  rw [← Option.isSome_iff_exists, Option.isSome_iff_ne_none, Ne]
  simp only [ReflectedFields.get, ReflectedFields.new, ReflectedFields.walk_none_iff]
  omega

/-- Round trip of an instance, stated over the indices of the flattened view. -/
theorem roundtrip_over_indices (inst : Addr) (fieldSet : List (FieldSet_t V)) (mem : Memory V)
    (hrt : ∀ i f, (ReflectedFields.new inst fieldSet).get i = some f →
      f.refl.RoundTrips (mem f.field))
    (className : String) (w : IWriter) (hw : w.room = none) (rest : IReader) (mem0 : Memory V) :
    serializeInstance w className (ReflectedFields.new inst fieldSet) mem =
        some (true, w.append (encode (ReflectedFields.new inst fieldSet) mem)) ∧
      ∃ mem1,
        deserializeInstance (encode (ReflectedFields.new inst fieldSet) mem ++ rest) className
            (ReflectedFields.new inst fieldSet) mem0 = some (true, rest, mem1) ∧
          ∀ i f, (ReflectedFields.new inst fieldSet).get i = some f →
            mem1 f.field = mem f.field := by
  obtain ⟨bs, hser, hdes⟩ := loops_roundtrip (ReflectedFields.new inst fieldSet) mem
    (ReflectedFields_get_some inst fieldSet) hrt (ReflectedFields.new inst fieldSet).count 0
    (by omega)
  have henc : encode (ReflectedFields.new inst fieldSet) mem = bs := by
    simp only [encode, serializeInstance, hser IWriter.empty IWriter.empty_room,
      IWriter.empty_append_bytes]
  rw [henc]
  refine ⟨hser w hw, ?_⟩
  obtain ⟨mem1, h1, h2⟩ := hdes rest mem0 (fun k f hk _ => absurd hk (by omega))
  exact ⟨mem1, h1, fun i f hf => h2 i f (ReflectedFields_get_lt inst fieldSet i f hf) hf⟩

end serialization.InstanceSerializer

namespace serialization.SmvIntSerializer

/-! ## Framing and length of the encoding -/

theorem emitBytes_length (c : Nat) : ∀ M : Nat, (emitBytes c M).length = c := by
  induction c with
  | zero => intro M; rfl
  | succ c ih => intro M; simp [emitBytes, ih]

/-- The emit loop, run with a mask of exactly `c` groups of 7 bits on an
unbounded writer, appends `emitBytes c M`. -/
theorem emitLoop_bytes (c : Nat) : ∀ (M s fuel : Nat) (w : IWriter), w.room = none →
    s < 128 ^ c → (c ≠ 0 → 128 ^ (c - 1) ≤ s) → c < fuel →
    emitLoop fuel M s w = some (true, w.append (emitBytes c M)) := by
  induction c with
  | zero =>
    intro M s fuel w _ hs _ hf
    obtain ⟨f, rfl⟩ : ∃ f, fuel = f + 1 := ⟨fuel - 1, by omega⟩
    have h0 : s = 0 := by simpa using hs
    subst h0
    rw [emitLoop_zero, emitBytes, IWriter.append_nil]
  | succ c ih =>
    intro M s fuel w hw hs hlow hf
    obtain ⟨f, rfl⟩ : ∃ f, fuel = f + 1 := ⟨fuel - 1, by omega⟩
    have hlow' := hlow (by omega)
    rw [Nat.add_sub_cancel] at hlow'
    have hpos : 1 ≤ 128 ^ c := Nat.one_le_pow _ _ (by norm_num)
    have hs0 : s ≠ 0 := by omega
    rw [Nat.pow_succ] at hs
    have hs' : s >>> 7 < 128 ^ c := by
      rw [Nat.shiftRight_eq_div_pow]
      generalize 128 ^ c = q at hs hlow' hpos
      omega
    have hlow2 : c ≠ 0 → 128 ^ (c - 1) ≤ s >>> 7 := by
      intro hc
      obtain ⟨d, rfl⟩ : ∃ d, c = d + 1 := ⟨c - 1, by omega⟩
      rw [Nat.add_sub_cancel, Nat.shiftRight_eq_div_pow]
      rw [Nat.pow_succ] at hlow'
      generalize 128 ^ d = q at hlow'
      omega
    have hnz : s >>> 7 ≠ 0 ↔ c ≠ 0 := by
      constructor
      · intro h hc
        subst hc
        simp at hs'
        exact h hs'
      · intro hc
        have := hlow2 hc
        have : 1 ≤ 128 ^ (c - 1) := Nat.one_le_pow _ _ (by norm_num)
        omega
    have hor : M % 128 ||| 0x80 = M % 128 + 128 := or_80 _ (Nat.mod_lt _ (by norm_num))
    rw [emitLoop]
    simp only [ne_eq, hs0, not_false_eq_true, if_true, and_7f]
    by_cases hc : c = 0
    · have hz : s >>> 7 = 0 := by
        by_contra h
        exact (hnz.mp h) hc
      subst hc
      simp only [hz, not_true_eq_false, if_false, IWriter.write_unbounded w hw]
      rw [ih _ _ _ _ (IWriter.append_room w hw _) (by simp) (by simp) (by omega),
        IWriter.append_append]
      simp [emitBytes, Nat.shiftRight_eq_div_pow]
    · have hz : s >>> 7 ≠ 0 := hnz.mpr hc
      simp only [hz, not_false_eq_true, if_true, hor, IWriter.write_unbounded w hw]
      rw [ih _ _ _ _ (IWriter.append_room w hw _) hs' hlow2 (by omega), IWriter.append_append]
      simp [emitBytes, hc, Nat.shiftRight_eq_div_pow]

/-- Closed form of the encoder on every input: the number `c` of bytes written
is the least positive one with the magnitude below `2 ^ (7 * c - 1)`, at most
ten, and the bytes are `emitBytes c` of some value. -/
theorem serializeValue_bytes (T : IntType) (v : Int) :
    ∃ c M, 1 ≤ c ∧ c ≤ 10 ∧ (magnitudeSign T v).1 < 2 ^ (7 * c - 1) ∧
      (1 < c → 2 ^ (7 * (c - 1) - 1) ≤ (magnitudeSign T v).1) ∧
      ∀ w : IWriter, w.room = none →
        serializeValue T w v = some (true, w.append (emitBytes c M)) := by
  have hmag : (magnitudeSign T v).1 < 2 ^ 64 := by
    unfold magnitudeSign toU64
    split <;> simp only <;> omega
  rcases hms : magnitudeSign T v with ⟨m, sg⟩
  rw [hms] at hmag
  simp only at hmag ⊢
  by_cases h62 : m < 2 ^ 62
  · obtain ⟨n, hn8, hm, hlow⟩ := exists_groupCount _ h62
    have hq : 1 ≤ 2 ^ (7 * n + 6) := Nat.one_le_two_pow
    have hq64 : 2 ^ (7 * n + 6) < 2 ^ 64 := Nat.pow_lt_pow_right (by norm_num) (by omega)
    have hmask : (2 ^ (7 * n + 6) + (2 ^ 64 - 1)) % 2 ^ 64 = 2 ^ (7 * n + 6) - 1 := by omega
    have hfull : 2 ^ (7 * n + 6) ||| (2 ^ (7 * n + 6) - 1) = 128 ^ (n + 1) - 1 := by
      have := Nat.mul_add_lt_is_or (show 2 ^ (7 * n + 6) - 1 < 2 ^ (7 * n + 6) by omega) 1
      rw [Nat.mul_one] at this
      rw [← this, show (128 : Nat) ^ (n + 1) = 2 * 2 ^ (7 * n + 6) by
        rw [show (128 : Nat) = 2 ^ 7 by norm_num, ← Nat.pow_mul]; ring]
      generalize 2 ^ (7 * n + 6) = q at hq
      omega
    have h128 : (128 : Nat) ^ (n + 1) = 128 * 128 ^ n := by ring
    have h128pos : 1 ≤ 128 ^ n := Nat.one_le_pow _ _ (by norm_num)
    refine ⟨n + 1, m ||| (sg * 2 ^ (7 * n + 6)) % 2 ^ 64, by omega, by omega, ?_, ?_,
      fun w hw => ?_⟩
    · rw [show 7 * (n + 1) - 1 = 7 * n + 6 by omega]; exact hm
    · intro hn
      rw [Nat.add_sub_cancel]
      exact hlow (by omega)
    · simp only [serializeValue, hms, signMaskLoop_start n _ hn8 hm hlow, hmask, hfull]
      exact emitLoop_bytes (n + 1) _ _ 64 w hw (by omega)
        (fun _ => by rw [Nat.add_sub_cancel]; omega) (by omega)
  · have hs := signMaskLoop_overflow _ (by omega) hmag
    refine ⟨10, m ||| (sg * 0) % 2 ^ 64, by omega, by omega, by norm_num; omega,
      fun _ => by norm_num; omega, fun w hw => ?_⟩
    simp only [serializeValue, hms, hs]
    exact emitLoop_bytes 10 _ _ 64 w hw (by norm_num) (fun _ => by norm_num) (by omega)

/-- On an unbounded writer `serializeValue` succeeds and appends
`encode T v`, whatever the value. -/
theorem serializeValue_unbounded (T : IntType) (v : Int) (w : IWriter) (hw : w.room = none) :
    serializeValue T w v = some (true, w.append (encode T v)) := by
  obtain ⟨c, M, _, _, _, _, h⟩ := serializeValue_bytes T v
  have henc : encode T v = emitBytes c M := by
    simp only [encode, h IWriter.empty IWriter.empty_room, IWriter.empty_append_bytes]
  rw [henc]
  exact h w hw

/-- The continuation bit is set on every byte of `emitBytes c M` but the last. -/
theorem emitBytes_continuation (c : Nat) : ∀ (M i : Nat) (b : Byte),
    (emitBytes c M)[i]? = some b → (128 ≤ b.val ↔ i + 1 < c) := by
  induction c with
  | zero => intro M i b h; simp [emitBytes] at h
  | succ c ih =>
    intro M i b h
    cases i with
    | zero =>
      simp only [emitBytes, List.getElem?_cons_zero, Option.some.injEq] at h
      subst h
      by_cases hc : c = 0
      · subst hc
        simp only [ne_eq, not_true_eq_false, if_false, Fin.ofNat]
        omega
      · simp only [ne_eq, hc, not_false_eq_true, if_true, Fin.ofNat]
        omega
    | succ i =>
      simp only [emitBytes, List.getElem?_cons_succ] at h
      rw [ih (M / 128) i b h]
      omega

theorem encode_length_spec (T : IntType) (v : Int) :
    1 ≤ (encode T v).length ∧ (encode T v).length ≤ 10 ∧
      (magnitudeSign T v).1 < 2 ^ (7 * (encode T v).length - 1) ∧
      (1 < (encode T v).length →
        2 ^ (7 * ((encode T v).length - 1) - 1) ≤ (magnitudeSign T v).1) := by
  obtain ⟨c, M, h1, h10, hlt, hlow, h⟩ := serializeValue_bytes T v
  have henc : encode T v = emitBytes c M := by
    simp only [encode, h IWriter.empty IWriter.empty_room, IWriter.empty_append_bytes]
  rw [henc, emitBytes_length]
  exact ⟨h1, h10, hlt, hlow⟩

/-- The magnitude the encoder computes grows with the absolute value. -/
theorem magnitudeSign_mono (T : IntType) (hT : T.Supported) (a b : Int) (ha : T.InRange a)
    (hb : T.InRange b) (hab : a.natAbs ≤ b.natAbs) :
    (magnitudeSign T a).1 ≤ (magnitudeSign T b).1 := by
  obtain ⟨bits, signed⟩ := T
  simp only [IntType.Supported] at hT
  simp only [IntType.InRange, IntType.minVal, IntType.maxVal] at ha hb
  rcases hT with h | h | h <;> subst h <;> cases signed <;>
    simp only [magnitudeSign, toU64, IntType.wrap, IntType.promote, IntType.int, Nat.reduceLT,
      Nat.reduceSub, Nat.reducePow, if_true, if_false, Bool.false_eq_true, ge_iff_le,
      Nat.cast_ofNat] at ha hb ⊢ <;>
    split_ifs <;> simp only <;> omega

theorem encode_length_mono (T : IntType) (a b : Int)
    (h : (magnitudeSign T a).1 ≤ (magnitudeSign T b).1) :
    (encode T a).length ≤ (encode T b).length := by
  obtain ⟨_, _, _, hlow⟩ := encode_length_spec T a
  obtain ⟨hb1, _, hlt, _⟩ := encode_length_spec T b
  by_contra hcon
  have h1 := hlow (by omega)
  have h2 : 2 ^ (7 * ((encode T a).length - 1) - 1) < 2 ^ (7 * (encode T b).length - 1) := by
    omega
  have h3 := (Nat.pow_lt_pow_iff_right (by norm_num)).mp h2
  omega

theorem groups_ne_nil (n m sign : Nat) : groups n m sign ≠ [] := by
  cases n <;> simp [groups]

/-- The last of the groups carries the sign flag at bit `0x40`. -/
theorem groups_getLast (n : Nat) : ∀ (m sign : Nat), m < 2 ^ (7 * n + 6) → sign ≤ 1 →
    ∃ b : Byte, (groups n m sign).getLast? = some b ∧ (b.val &&& 0x40 ≠ 0 ↔ sign = 1) := by
  induction n with
  | zero =>
    intro m sign hm hs
    have hm' : m < 64 := by simpa using hm
    refine ⟨Fin.ofNat (m % 64 + 64 * sign), by simp [groups], ?_⟩
    rw [byte_and_40]
    simp only [Fin.ofNat, Nat.reduceAdd]
    omega
  | succ n ih =>
    intro m sign hm hs
    have e1 : 2 ^ (7 * (n + 1) + 6) = 128 * 2 ^ (7 * n + 6) := by ring
    rw [e1] at hm
    obtain ⟨b, hb, hflag⟩ := ih (m / 128) sign (by omega) hs
    refine ⟨b, ?_, hflag⟩
    rw [groups, List.getLast?_cons, hb]
    rfl

/-- Below the overflow of the sign mask the last byte written has bit `0x40` set
exactly for the negative values. -/
theorem sign_flag_below_overflow (T : IntType) (v : Int)
    (h : (magnitudeSign T v).1 < 2 ^ 62) :
    ∃ b : Byte, (encode T v).getLast? = some b ∧ (b.val &&& 0x40 ≠ 0 ↔ v < 0) := by
  obtain ⟨n, hn8, hm, hlow⟩ := exists_groupCount _ h
  have hsign : (magnitudeSign T v).2 ≤ 1 ∧ ((magnitudeSign T v).2 = 1 ↔ v < 0) := by
    by_cases hv : v ≥ 0
    · simp only [magnitudeSign, hv, if_true]
      exact ⟨by omega, fun h0 => by omega, fun hneg => by omega⟩
    · simp only [magnitudeSign, hv, if_false]
      exact ⟨le_refl _, fun _ => by omega, fun _ => trivial⟩
  have hser := serializeValue_groups T IWriter.empty IWriter.empty_room v n
    (magnitudeSign T v).1 (magnitudeSign T v).2 rfl hsign.1 hn8 hm hlow
  have henc : encode T v = groups n (magnitudeSign T v).1 (magnitudeSign T v).2 := by
    simp only [encode, hser, IWriter.empty_append_bytes]
  obtain ⟨b, hb, hflag⟩ := groups_getLast n _ _ hm hsign.1
  exact ⟨b, by rw [henc]; exact hb, hflag.trans hsign.2⟩

theorem serializeValue_zero (T : IntType) (w : IWriter) (hw : w.room = none) :
    serializeValue T w 0 = some (true, w.append [0x00]) := by
  have hms : magnitudeSign T 0 = (0, 0) := by
    simp [magnitudeSign, toU64]
  have h := serializeValue_groups T w hw 0 0 0 0 hms (by omega) (by omega) (by norm_num)
    (by omega)
  have hg : groups 0 0 0 = [0x00] := rfl
  rw [hg] at h
  exact h

/-- At `unsigned long long` every 64-bit number is the magnitude of a value. -/
theorem magnitudeSign_unsignedLongLong (m : Nat) (hm : m < 2 ^ 64) :
    magnitudeSign IntType.unsignedLongLong m = (m, 0) := by
  simp only [magnitudeSign, toU64, ge_iff_le, Int.ofNat_zero_le, if_true, Prod.mk.injEq, and_true]
  omega

end serialization.SmvIntSerializer

namespace serialization

/-- C11, evaluated where it fails: the `long long` value `-2 ^ 62` is negative,
yet the last of the ten bytes written for it is `00`, with bit `0x40` clear:
the sign mask has overflowed to zero and the sign flag is dropped. -/
theorem SmvIntSerializer.sign_flag_lost :
    IntType.longLong.InRange (-2 ^ 62) ∧
      SmvIntSerializer.serializeValue IntType.longLong IWriter.empty (-2 ^ 62) =
        some (true, ⟨[0x80, 0x80, 0x80, 0x80, 0x80, 0x80, 0x80, 0x80, 0xC0, 0x00], none⟩) ∧
      (SmvIntSerializer.encode IntType.longLong (-2 ^ 62)).getLast? = some 0x00 ∧
      (0x00 : Byte).val &&& 0x40 = 0 := by
  decide

/-- C12: at every integer type, `serializeValue(0)` on an unbounded writer
succeeds and appends exactly one byte, `0x00`. -/
theorem SmvIntSerializer.zero_is_one_zero_byte (T : IntType) (w : IWriter)
    (hw : w.room = none) :
    SmvIntSerializer.serializeValue T w 0 = some (true, w.append [0x00]) ∧
      SmvIntSerializer.encode T 0 = [0x00] := by
  have h := SmvIntSerializer.serializeValue_zero T
  refine ⟨h w hw, ?_⟩
  simp only [SmvIntSerializer.encode, h IWriter.empty IWriter.empty_room,
    IWriter.empty_append_bytes]

/-- Witness of C12: `short`, on the empty unbounded writer. -/
theorem SmvIntSerializer.zero_is_one_zero_byte_witness :
    SmvIntSerializer.serializeValue IntType.short IWriter.empty 0 =
        some (true, IWriter.empty.append [0x00]) ∧
      SmvIntSerializer.encode IntType.short 0 = [0x00] :=
  SmvIntSerializer.zero_is_one_zero_byte IntType.short IWriter.empty rfl

/-- C13: for two representable values `a` and `b` of one integer type with
`|a| ≤ |b|`, `serializeValue` writes at most as many bytes for `a` as for `b`;
in particular values of equal magnitude and opposite sign get encodings of the
same length. -/
theorem SmvIntSerializer.length_monotone (T : IntType) (hT : T.Supported) (a b : Int)
    (ha : T.InRange a) (hb : T.InRange b) (hab : a.natAbs ≤ b.natAbs) :
    (SmvIntSerializer.encode T a).length ≤ (SmvIntSerializer.encode T b).length :=
  SmvIntSerializer.encode_length_mono T a b
    (SmvIntSerializer.magnitudeSign_mono T hT a b ha hb hab)

/-- Witness of C13: `-5` and `1000` as `int`. -/
theorem SmvIntSerializer.length_monotone_witness :
    (SmvIntSerializer.encode IntType.int (-5)).length ≤
      (SmvIntSerializer.encode IntType.int 1000).length :=
  SmvIntSerializer.length_monotone IntType.int (by decide) (-5) 1000 (by decide) (by decide)
    (by decide)

/-- C20: for every type and value, with `m` the magnitude `serializeValue`
computes, the encoder returns (its loops terminate) and writes
`(encode T v).length` bytes, a number between 1 and 10 that is the least
positive `n` with `m < 2 ^ (7 * n - 1)`; each byte has the continuation bit
`0x80` set exactly when it is not the last one.  Every number below `2 ^ 64`
is such a magnitude, of itself taken as an `unsigned long long`. -/
theorem SmvIntSerializer.framing_and_length (T : IntType) (v : Int) :
    SmvIntSerializer.serializeValue T IWriter.empty v =
        some (true, IWriter.empty.append (SmvIntSerializer.encode T v)) ∧
      (SmvIntSerializer.magnitudeSign T v).1 < 2 ^ 64 ∧
      1 ≤ (SmvIntSerializer.encode T v).length ∧ (SmvIntSerializer.encode T v).length ≤ 10 ∧
      (SmvIntSerializer.magnitudeSign T v).1 < 2 ^ (7 * (SmvIntSerializer.encode T v).length - 1) ∧
      (∀ n, 1 ≤ n ∧ (SmvIntSerializer.magnitudeSign T v).1 < 2 ^ (7 * n - 1) ↔
        (SmvIntSerializer.encode T v).length ≤ n) ∧
      ∀ (i : Nat) (b : Byte), (SmvIntSerializer.encode T v)[i]? = some b →
        (b.val &&& 0x80 ≠ 0 ↔ i + 1 < (SmvIntSerializer.encode T v).length) := by
  obtain ⟨c, M, h1, h10, hlt, hlow, h⟩ := SmvIntSerializer.serializeValue_bytes T v
  have henc : SmvIntSerializer.encode T v = SmvIntSerializer.emitBytes c M := by
    simp only [SmvIntSerializer.encode, h IWriter.empty IWriter.empty_room,
      IWriter.empty_append_bytes]
  have hmag : (SmvIntSerializer.magnitudeSign T v).1 < 2 ^ 64 := by
    unfold SmvIntSerializer.magnitudeSign toU64
    split <;> simp only <;> omega
  rw [henc, SmvIntSerializer.emitBytes_length]
  refine ⟨h _ IWriter.empty_room, hmag, h1, h10, hlt, fun n => ⟨fun ⟨hn1, hn⟩ => ?_, fun hn => ?_⟩,
    fun i b hb => ?_⟩
  · by_contra hcon
    have h2 := hlow (by omega)
    have h3 : 2 ^ (7 * (c - 1) - 1) < 2 ^ (7 * n - 1) := by omega
    have h4 := (Nat.pow_lt_pow_iff_right (by norm_num)).mp h3
    omega
  · refine ⟨by omega, lt_of_lt_of_le hlt (Nat.pow_le_pow_right (by norm_num) (by omega))⟩
  · rw [byte_and_80]
    exact SmvIntSerializer.emitBytes_continuation c M i b hb

/-! ## Tag check -/

/-- C14: on a stream with a first byte `tag`, `checkTag` returns success exactly
when `tag` equals the expected tag, leaves the reader just after that one byte
in both cases, and on a mismatch adds one `IncorrectType` report to the error
handler (none on a match); on an empty stream it returns failure and reports
nothing. -/
theorem checkTag_spec (err : IErrorHandler) (expected tag : Byte) (rest : IReader) :
    ((checkTag err (tag :: rest) expected).1 = true ↔ tag = expected) ∧
      (checkTag err (tag :: rest) expected).2.2 = rest ∧
      (checkTag err (tag :: rest) expected).2.1 =
        (if tag = expected then err
         else err ++ [⟨"IncorrectType", "Unexpected tag 0x%02X, expected 0x%02X.",
           [tag.val, expected.val]⟩]) ∧
      checkTag err [] expected = (false, err, []) := by
  refine ⟨?_, ?_, ?_, ?_⟩
  · by_cases h : tag = expected <;> simp [checkTag, IReader.read, h]
  · by_cases h : tag = expected <;> simp [checkTag, IReader.read, h]
  · by_cases h : tag = expected <;> simp [checkTag, IReader.read, h, IErrorHandler.errorf]
  · simp [checkTag, IReader.read]

/-! ## Vectors: the empty vector and a failing element -/

theorem SmvIntSerializer.deserializeValue_zero_byte (rest : IReader) (prior : Int) :
    SmvIntSerializer.deserializeValue IntType.uint64_t (0x00 :: rest) prior = (true, rest, 0) := by
  have h := SmvIntSerializer.deserializeLoop_last IntType.uint64_t 0x00 rest 0 0 prior (by decide)
  rw [SmvIntSerializer.deserializeValue, h]
  have hv : SmvIntSerializer.valueOf IntType.uint64_t
      (0 ||| toU64 (shlInt ((0x00 : Byte).val % 64) 0))
      (decide ((0x00 : Byte).val / 64 % 2 = 1)) = 0 := by decide
  rw [hv]

/-- C17: for every element codec, `serialize` of the empty vector on an
unbounded writer appends exactly one byte, `0x00`, and `deserialize` on a
stream that starts with `0x00` succeeds, consumes only that byte and leaves
the output vector empty whatever it held. -/
theorem Serializer_vector.empty_vector {T : Type} (elem : Serializer T) (init : T) (w : IWriter)
    (hw : w.room = none) (rest : IReader) (prior : List T) :
    Serializer_vector.serialize elem w [] = some (true, w.append [0x00]) ∧
      Serializer_vector.deserialize elem init (0x00 :: rest) prior = (true, rest, []) := by
  constructor
  · have h := SmvIntSerializer.serializeValue_zero IntType.size_t w hw
    simp only [Serializer_vector.serialize, List.length_nil, Nat.cast_zero, h,
      Serializer_vector.writeLoop]
  · simp only [Serializer_vector.deserialize, SmvIntSerializer.deserializeValue_zero_byte,
      Int.toNat_zero, Serializer_vector.readLoop]

/-- Witness of C17: a vector of `bool`, read into an output that held two
elements. -/
theorem Serializer_vector.empty_vector_witness :
    Serializer_vector.serialize Serializer.bool IWriter.empty [] =
        some (true, IWriter.empty.append [0x00]) ∧
      Serializer_vector.deserialize Serializer.bool false (0x00 :: [0x01, 0x01]) [true, true] =
        (true, [0x01, 0x01], []) :=
  Serializer_vector.empty_vector Serializer.bool false IWriter.empty rfl [0x01, 0x01] [true, true]

theorem Serializer_vector.readLoop_failing {T : Type} (elem : Serializer T) (init : T)
    (xs : List T) : ∀ (count : Nat) (acc : List T) (r rk rfail : IReader) (x : T),
      Serializer_vector.DecodesSeq elem init xs r rk → xs.length < count →
      elem.deserialize rk init = (false, rfail, x) →
      Serializer_vector.readLoop elem init count r acc = (false, rfail, acc ++ xs ++ [x]) := by
  induction xs with
  | nil =>
    intro count acc r rk rfail x hseq hlen hfail
    obtain ⟨c, rfl⟩ : ∃ c, count = c + 1 := ⟨count - 1, by simp at hlen; omega⟩
    simp only [Serializer_vector.DecodesSeq] at hseq
    subst hseq
    simp only [Serializer_vector.readLoop, hfail, List.append_nil]
  | cons y ys ih =>
    intro count acc r rk rfail x hseq hlen hfail
    obtain ⟨c, rfl⟩ : ∃ c, count = c + 1 := ⟨count - 1, by simp at hlen; omega⟩
    obtain ⟨r1, hy, hrest⟩ := hseq
    simp only [Serializer_vector.readLoop, hy]
    rw [ih c (acc ++ [y]) r1 rk rfail x hrest (by simp at hlen; omega) hfail]
    simp

/-- C18 as amended: when the length prefix decodes to `n`, the elements `xs`
(fewer than `n`) decode successfully one after the other and the next element
fails to decode, `deserialize` returns failure and the output vector holds the
decoded elements `xs`, in order, followed by one more element: the slot
appended for the failed element, as its decoder left it. -/
theorem Serializer_vector.failed_element_keeps_slot {T : Type} (elem : Serializer T) (init : T)
    (reader r0 rk rfail : IReader) (n : Int) (xs : List T) (x : T) (prior : List T)
    (hlen : SmvIntSerializer.deserializeValue IntType.uint64_t reader 0 = (true, r0, n))
    (hk : xs.length < n.toNat)
    (hxs : Serializer_vector.DecodesSeq elem init xs r0 rk)
    (hfail : elem.deserialize rk init = (false, rfail, x)) :
    Serializer_vector.deserialize elem init reader prior = (false, rfail, xs ++ [x]) := by
  simp only [Serializer_vector.deserialize, hlen]
  rw [Serializer_vector.readLoop_failing elem init xs n.toNat [] r0 rk rfail x hxs hk hfail]
  simp

end serialization

namespace serialization.InstanceSerializer

open reflection

variable {V : Type}

/-! ## Wire layout of a class instance -/

theorem concatUpTo_zero (part : Nat → List Byte) : concatUpTo part 0 = [] := rfl

theorem concatUpTo_succ (part : Nat → List Byte) (n : Nat) :
    concatUpTo part (n + 1) = concatUpTo part n ++ part n := by
  simp [concatUpTo, List.range_succ]

/-- The write loop from index `i` on, when every remaining field appends its
bytes `enc j` after the bytes of the fields before it. -/
theorem serializeLoop_layout (fields : ReflectedFields V) (mem : Memory V)
    (enc : Nat → List Byte) (w : IWriter)
    (h : ∀ i, i < fields.count → ∃ f, fields.get i = some f ∧
      f.serialize mem (w.append (concatUpTo enc i)) =
        some (true, (w.append (concatUpTo enc i)).append (enc i)))
    (todo : Nat) : ∀ i, i + todo = fields.count →
      serializeLoop fields mem todo i (w.append (concatUpTo enc i)) =
        some (true, w.append (concatUpTo enc fields.count)) := by
  induction todo with
  | zero =>
    intro i hi
    rw [Nat.add_zero] at hi
    rw [hi, serializeLoop]
  | succ todo ih =>
    intro i hi
    obtain ⟨f, hf, hs⟩ := h i (by omega)
    simp only [serializeLoop, hf, hs]
    rw [IWriter.append_append, ← concatUpTo_succ]
    exact ih (i + 1) (by omega)

/-- The write loop from index `i` on, when the fields before `k` append their
bytes and field `k` fails: the loop stops there with the writer field `k`
left. -/
theorem serializeLoop_short_circuit (fields : ReflectedFields V) (mem : Memory V)
    (enc : Nat → List Byte) (w wfail : IWriter) (k : Nat)
    (hpre : ∀ i, i < k → ∃ f, fields.get i = some f ∧
      f.serialize mem (w.append (concatUpTo enc i)) =
        some (true, (w.append (concatUpTo enc i)).append (enc i)))
    (hfail : ∃ f, fields.get k = some f ∧
      f.serialize mem (w.append (concatUpTo enc k)) = some (false, wfail))
    (todo : Nat) : ∀ i, i ≤ k → k < i + todo →
      serializeLoop fields mem todo i (w.append (concatUpTo enc i)) = some (false, wfail) := by
  induction todo with
  | zero => intro i h1 h2; omega
  | succ todo ih =>
    intro i h1 h2
    by_cases hik : i = k
    · subst hik
      obtain ⟨f, hf, hs⟩ := hfail
      simp only [serializeLoop, hf, hs]
    · obtain ⟨f, hf, hs⟩ := hpre i (by omega)
      simp only [serializeLoop, hf, hs]
      rw [IWriter.append_append, ← concatUpTo_succ]
      exact ih (i + 1) (by omega) (by omega)

/-- C15: when every field of the flattened view, started after the bytes of
the fields before it, succeeds and appends its bytes `enc i`, then
`serializeInstance` succeeds and the writer holds, after what it held, exactly
`enc 0 ++ ... ++ enc (count - 1)`: no tag, count or name is added; with zero
fields it holds what it held. -/
theorem serializeInstance_layout (inst : Addr) (fieldSet : List (FieldSet_t V)) (mem : Memory V)
    (enc : Nat → List Byte) (className : String) (w : IWriter)
    (h : ∀ i f, (ReflectedFields.new inst fieldSet).get i = some f →
      f.serialize mem (w.append (concatUpTo enc i)) =
        some (true, (w.append (concatUpTo enc i)).append (enc i))) :
    serializeInstance w className (ReflectedFields.new inst fieldSet) mem =
        some (true, w.append (concatUpTo enc (ReflectedFields.new inst fieldSet).count)) ∧
      ((ReflectedFields.new inst fieldSet).count = 0 →
        serializeInstance w className (ReflectedFields.new inst fieldSet) mem = some (true, w)) := by
  have hmain : serializeInstance w className (ReflectedFields.new inst fieldSet) mem =
      some (true, w.append (concatUpTo enc (ReflectedFields.new inst fieldSet).count)) := by
    have hl := serializeLoop_layout (ReflectedFields.new inst fieldSet) mem enc w
      (fun i hi => by
        obtain ⟨f, hf⟩ := ReflectedFields_get_some inst fieldSet i hi
        exact ⟨f, hf, h i f hf⟩)
      (ReflectedFields.new inst fieldSet).count 0 (by omega)
    rw [concatUpTo_zero, IWriter.append_nil] at hl
    exact hl
  refine ⟨hmain, fun h0 => ?_⟩
  rw [hmain, h0, concatUpTo_zero, IWriter.append_nil]

/-- Witness of C15: the three-level sample chain, five `bool` fields. -/
theorem serializeInstance_layout_witness :
    serializeInstance IWriter.empty "Derived"
        (ReflectedFields.new 100 [Sample.derived, Sample.middle, Sample.root]) Sample.evenTrue =
        some (true, IWriter.empty.append (concatUpTo Sample.fieldBytes
          (ReflectedFields.new 100 [Sample.derived, Sample.middle, Sample.root]).count)) ∧
      ((ReflectedFields.new 100 [Sample.derived, Sample.middle, Sample.root]).count = 0 →
        serializeInstance IWriter.empty "Derived"
          (ReflectedFields.new 100 [Sample.derived, Sample.middle, Sample.root]) Sample.evenTrue =
          some (true, IWriter.empty)) :=
  serializeInstance_layout 100 [Sample.derived, Sample.middle, Sample.root] Sample.evenTrue
    Sample.fieldBytes "Derived" IWriter.empty (fun i f hf => by
      have hi := ReflectedFields_get_lt _ _ i f hf
      have hc : (ReflectedFields.new 100 [Sample.derived, Sample.middle, Sample.root]).count = 5 :=
        rfl
      rw [hc] at hi
      interval_cases i <;> cases hf <;> decide)

/-- C16: when the fields before index `k` succeed, each appending its bytes
`enc i`, and field `k`, started after those bytes, fails having appended
`part` (possibly nothing), then `serializeInstance` returns failure and the
writer holds, after what it held, the bytes of the fields `0 .. k - 1` followed
by `part`: nothing is undone.  Nothing is assumed about the fields after `k`,
not even that their serializers return: they are not run. -/
theorem serializeInstance_short_circuit (inst : Addr) (fieldSet : List (FieldSet_t V))
    (mem : Memory V) (enc : Nat → List Byte) (className : String) (w : IWriter) (k : Nat)
    (part : List Byte)
    (hpre : ∀ i f, i < k → (ReflectedFields.new inst fieldSet).get i = some f →
      f.serialize mem (w.append (concatUpTo enc i)) =
        some (true, (w.append (concatUpTo enc i)).append (enc i)))
    (hfail : ∃ f, (ReflectedFields.new inst fieldSet).get k = some f ∧
      f.serialize mem (w.append (concatUpTo enc k)) =
        some (false, (w.append (concatUpTo enc k)).append part)) :
    serializeInstance w className (ReflectedFields.new inst fieldSet) mem =
      some (false, w.append (concatUpTo enc k ++ part)) := by
  obtain ⟨fk, hfk, hsk⟩ := hfail
  have hk := ReflectedFields_get_lt inst fieldSet k fk hfk
  have hl := serializeLoop_short_circuit (ReflectedFields.new inst fieldSet) mem enc w
    ((w.append (concatUpTo enc k)).append part) k
    (fun i hi => by
      obtain ⟨f, hf⟩ := ReflectedFields_get_some inst fieldSet i (by omega)
      exact ⟨f, hf, hpre i f hi hf⟩)
    ⟨fk, hfk, hsk⟩ (ReflectedFields.new inst fieldSet).count 0 (by omega) (by omega)
  rw [concatUpTo_zero, IWriter.append_nil, IWriter.append_append] at hl
  exact hl

/-- Witness of C16: the sample chain written to a sink with room for two bytes;
the third field fails, the two bytes written stay. -/
theorem serializeInstance_short_circuit_witness :
    serializeInstance ⟨[], some 2⟩ "Derived"
        (ReflectedFields.new 100 [Sample.derived, Sample.middle, Sample.root]) Sample.evenTrue =
      some (false, (⟨[], some 2⟩ : IWriter).append (concatUpTo Sample.fieldBytes 2 ++ [])) :=
  serializeInstance_short_circuit 100 [Sample.derived, Sample.middle, Sample.root] Sample.evenTrue
    Sample.fieldBytes "Derived" ⟨[], some 2⟩ 2 []
    (fun i f hi hf => by interval_cases i <;> cases hf <;> decide)
    ⟨Field.new (Sample.boolField "m0" 0) "Middle" 108, rfl, by decide⟩

end serialization.InstanceSerializer

namespace serialization

/-! ## Class schema -/

theorem take_length_takeWhile (p : Byte → Bool) (l : List Byte) :
    l.take (l.takeWhile p).length = l.takeWhile p := by
  induction l with
  | nil => rfl
  | cons b l ih =>
    by_cases h : p b
    · simp [List.takeWhile_cons, h, ih]
    · simp [List.takeWhile_cons, h]

theorem takeWhile_takeWhile (p : Byte → Bool) (l : List Byte) :
    (l.takeWhile p).takeWhile p = l.takeWhile p := by
  induction l with
  | nil => rfl
  | cons b l ih =>
    by_cases h : p b
    · simp [List.takeWhile_cons, h, ih]
    · simp [List.takeWhile_cons, h]

/-- A C string set into a `BufString_t` and serialized goes out on an unbounded
writer as its byte length, SmvInt encoded, and then its bytes. -/
theorem Serializer_BufString.serialize_bufStringSet (value : List Byte) (w : IWriter)
    (hw : w.room = none) :
    Serializer_BufString.serialize w (bufStringSet value (strlen value)) =
      some (true, w.append (InstanceSerializer.lengthPrefixed value)) := by
  simp only [Serializer_BufString.serialize, Serializer_BufString.serializeCStr, bufStringSet,
    strlen, take_length_takeWhile, takeWhile_takeWhile, List.take_length,
    SmvIntSerializer.serializeValue_unbounded _ _ w hw,
    IWriter.write_unbounded _ (IWriter.append_room w hw _), IWriter.append_append,
    InstanceSerializer.lengthPrefixed]

end serialization

namespace serialization.InstanceSerializer

open reflection

variable {V : Type}

theorem schemaRecord_of_get (fields : ReflectedFields V) (typeInfo : Nat → List Byte) (i : Nat)
    (f : reflection.Field V) (hf : fields.get i = some f) :
    schemaRecord fields typeInfo i =
      lengthPrefixed (nameBytes f.className) ++ lengthPrefixed (nameBytes f.name) ++ typeInfo i := by
  simp only [schemaRecord, hf]

/-- The schema loop from index `i` on, on an unbounded writer. -/
theorem schemaLoop_layout
    (sti : ITypeReflection V → IWriter → Option (Bool × IWriter))
    (fields : ReflectedFields V) (typeInfo : Nat → List Byte)
    (h : ∀ i, i < fields.count → ∃ f, fields.get i = some f ∧
      ∀ w : IWriter, w.room = none → sti f.refl w = some (true, w.append (typeInfo i)))
    (todo : Nat) : ∀ (i : Nat) (w : IWriter), w.room = none → i + todo = fields.count →
      schemaLoop sti fields todo i (w.append (concatUpTo (schemaRecord fields typeInfo) i)) =
        some (true, w.append (concatUpTo (schemaRecord fields typeInfo) fields.count)) := by
  induction todo with
  | zero =>
    intro i w _ hi
    rw [Nat.add_zero] at hi
    rw [hi, schemaLoop]
  | succ todo ih =>
    intro i w hw hi
    obtain ⟨f, hf, hs⟩ := h i (by omega)
    have hw1 := IWriter.append_room w hw (concatUpTo (schemaRecord fields typeInfo) i)
    have hw2 := IWriter.append_room _ hw1 (lengthPrefixed (nameBytes f.className))
    have hw3 := IWriter.append_room _ hw2 (lengthPrefixed (nameBytes f.name))
    simp only [schemaLoop, hf, Serializer_BufString.serialize_bufStringSet _ _ hw1,
      Serializer_BufString.serialize_bufStringSet _ _ hw2, hs _ hw3]
    have hrec : (((w.append (concatUpTo (schemaRecord fields typeInfo) i)).append
        (lengthPrefixed (nameBytes f.className))).append
        (lengthPrefixed (nameBytes f.name))).append (typeInfo i) =
        w.append (concatUpTo (schemaRecord fields typeInfo) (i + 1)) := by
      rw [concatUpTo_succ, schemaRecord_of_get fields typeInfo i f hf]
      simp only [IWriter.append_append, List.append_assoc]
    rw [hrec]
    exact ih (i + 1) w hw (by omega)

/-- The schema written on an unbounded writer, stated over the indices of the
flattened view. -/
theorem serializeSchema_by_index (sti : ITypeReflection V → IWriter → Option (Bool × IWriter))
    (inst : Addr) (fieldSet : List (FieldSet_t V)) (typeInfo : Nat → List Byte)
    (className : String) (w : IWriter) (hw : w.room = none)
    (h : ∀ i f, (ReflectedFields.new inst fieldSet).get i = some f →
      ∀ w' : IWriter, w'.room = none → sti f.refl w' = some (true, w'.append (typeInfo i))) :
    serializeSchema sti w className (ReflectedFields.new inst fieldSet) =
      some (true, w.append
        (SmvIntSerializer.encode IntType.size_t (ReflectedFields.new inst fieldSet).count ++
          concatUpTo (schemaRecord (ReflectedFields.new inst fieldSet) typeInfo)
            (ReflectedFields.new inst fieldSet).count)) := by
  have hl := schemaLoop_layout sti (ReflectedFields.new inst fieldSet) typeInfo
    (fun i hi => by
      obtain ⟨f, hf⟩ := ReflectedFields_get_some inst fieldSet i hi
      exact ⟨f, hf, h i f hf⟩)
    (ReflectedFields.new inst fieldSet).count 0
    (w.append (SmvIntSerializer.encode IntType.size_t (ReflectedFields.new inst fieldSet).count))
    (IWriter.append_room w hw _) (by omega)
  rw [concatUpTo_zero, IWriter.append_nil, IWriter.append_append] at hl
  simp only [serializeSchema, Serializer.smvInt, SmvIntSerializer.serializeValue_unbounded _ _ w hw]
  exact hl

end serialization.InstanceSerializer

namespace serialization.SmvIntSerializer

/-! ## Truncated and non-canonical input -/

/-- The decoder loop fails exactly on an input of continuation bytes only, and
then leaves the output as it was and the input used up. -/
theorem deserializeLoop_fails_iff (T : IntType) (reader : IReader) :
    ∀ (acc sh : Nat) (prior : Int),
      ((deserializeLoop T reader acc sh prior).1 = false ↔
          ∀ b ∈ reader, b.val &&& 0x80 ≠ 0) ∧
        ((deserializeLoop T reader acc sh prior).1 = false →
          (deserializeLoop T reader acc sh prior).2.2 = prior ∧
            (deserializeLoop T reader acc sh prior).2.1 = []) := by
  induction reader with
  | nil => intro acc sh prior; simp [deserializeLoop]
  | cons b rest ih =>
    intro acc sh prior
    by_cases hb : 128 ≤ b.val
    · rw [deserializeLoop_continue T b rest acc sh prior hb]
      have h := ih (acc ||| toU64 (shlInt (b.val % 128) sh)) ((sh + 7) % 2 ^ 32) prior
      refine ⟨?_, h.2⟩
      rw [h.1]
      simp only [List.mem_cons, forall_eq_or_imp]
      exact ⟨fun hr => ⟨(byte_and_80 b).mpr hb, hr⟩, fun hr => hr.2⟩
    · rw [deserializeLoop_last T b rest acc sh prior (by omega)]
      refine ⟨⟨fun hf => (by cases hf), fun hall => ?_⟩, fun hf => (by cases hf)⟩
      exact absurd ((byte_and_80 b).mp (hall b (List.mem_cons_self b rest))) hb

/-- The decoder loop stops at the first byte without the continuation bit and
leaves what follows it unread. -/
theorem deserializeLoop_stops_at_first (T : IntType) (pre : List Byte) :
    ∀ (b : Byte) (rest : IReader) (acc sh : Nat) (prior : Int),
      (∀ c ∈ pre, c.val &&& 0x80 ≠ 0) → b.val &&& 0x80 = 0 →
      (deserializeLoop T (pre ++ b :: rest) acc sh prior).1 = true ∧
        (deserializeLoop T (pre ++ b :: rest) acc sh prior).2.1 = rest := by
  induction pre with
  | nil =>
    intro b rest acc sh prior _ hb
    have hlt : b.val < 128 := by
      by_contra hcon
      exact (byte_and_80 b).mpr (by omega) hb
    rw [List.nil_append, deserializeLoop_last T b rest acc sh prior hlt]
    exact ⟨rfl, rfl⟩
  | cons c pre ih =>
    intro b rest acc sh prior hpre hb
    have hc : 128 ≤ c.val := (byte_and_80 c).mp (hpre c (List.mem_cons_self c pre))
    rw [List.cons_append, deserializeLoop_continue T c _ acc sh prior hc]
    exact ih b rest _ _ prior (fun d hd => hpre d (List.mem_cons_of_mem c hd)) hb

end serialization.SmvIntSerializer

namespace serialization

/-- C21: on every finite input `deserializeValue` returns.  It returns failure
exactly when no byte of the input has bit `0x80` clear (the empty input
included), and then the output variable keeps its content; otherwise, with
`b` the first byte that has bit `0x80` clear, it succeeds and leaves unread
exactly the bytes after `b`. -/
theorem SmvIntSerializer.truncated_input (T : IntType) (reader : IReader) (prior : Int) :
    ((SmvIntSerializer.deserializeValue T reader prior).1 = false ↔
        ∀ b ∈ reader, b.val &&& 0x80 ≠ 0) ∧
      ((SmvIntSerializer.deserializeValue T reader prior).1 = false →
        (SmvIntSerializer.deserializeValue T reader prior).2.2 = prior) ∧
      ∀ (pre : List Byte) (b : Byte) (rest : IReader), reader = pre ++ b :: rest →
        (∀ c ∈ pre, c.val &&& 0x80 ≠ 0) → b.val &&& 0x80 = 0 →
        (SmvIntSerializer.deserializeValue T reader prior).1 = true ∧
          (SmvIntSerializer.deserializeValue T reader prior).2.1 = rest := by
  have h := SmvIntSerializer.deserializeLoop_fails_iff T reader 0 0 prior
  refine ⟨h.1, fun hf => (h.2 hf).1, fun pre b rest hr hpre hb => ?_⟩
  subst hr
  exact SmvIntSerializer.deserializeLoop_stops_at_first T pre b rest 0 0 prior hpre hb

/-- C22: at every supported width the one-byte input `40` and the two-byte
input `80 00` decode successfully to 0, as the canonical `00` does, while
`serializeValue` writes 0 as `00`: encoding what was decoded does not give
back either input, and decoding is not injective. -/
theorem SmvIntSerializer.non_canonical_zero (T : IntType) (hT : T.Supported) (prior : Int) :
    SmvIntSerializer.deserializeValue T [0x40] prior = (true, [], 0) ∧
      SmvIntSerializer.deserializeValue T [0x80, 0x00] prior = (true, [], 0) ∧
      SmvIntSerializer.deserializeValue T [0x00] prior = (true, [], 0) ∧
      SmvIntSerializer.encode T 0 = [0x00] ∧
      SmvIntSerializer.encode T 0 ≠ [0x40] ∧
      SmvIntSerializer.encode T 0 ≠ [0x80, 0x00] := by
  have henc : SmvIntSerializer.encode T 0 = [0x00] := by
    simp only [SmvIntSerializer.encode,
      SmvIntSerializer.serializeValue_zero T IWriter.empty IWriter.empty_room,
      IWriter.empty_append_bytes]
  obtain ⟨bits, signed⟩ := T
  simp only [IntType.Supported] at hT
  refine ⟨?_, ?_, ?_, henc, by rw [henc]; decide, by rw [henc]; decide⟩ <;>
    (rcases hT with h | h | h <;> subst h <;> cases signed <;> rfl)

/-- Witness of C22: `short`, with the output holding 7 before. -/
theorem SmvIntSerializer.non_canonical_zero_witness :
    SmvIntSerializer.deserializeValue IntType.short [0x40] 7 = (true, [], 0) ∧
      SmvIntSerializer.deserializeValue IntType.short [0x80, 0x00] 7 = (true, [], 0) ∧
      SmvIntSerializer.deserializeValue IntType.short [0x00] 7 = (true, [], 0) ∧
      SmvIntSerializer.encode IntType.short 0 = [0x00] ∧
      SmvIntSerializer.encode IntType.short 0 ≠ [0x40] ∧
      SmvIntSerializer.encode IntType.short 0 ≠ [0x80, 0x00] :=
  SmvIntSerializer.non_canonical_zero IntType.short (by decide) 7

end serialization

namespace reflection

open serialization

variable {V : Type}

/-- Every field the walk yields is a descriptor of some level of the chain, with
that level's class name and adjusted address. -/
theorem ReflectedFields.walk_some_decomp (fs : List (FieldSet_t V)) :
    ∀ (p : Addr) (i : Nat) (f : reflection.Field V), ReflectedFields.walk fs p i = some f →
      ∃ (pre : List (FieldSet_t V)) (S : FieldSet_t V) (post : List (FieldSet_t V)) (j : Nat)
        (h : j < S.fields.length),
        fs = pre ++ S :: post ∧ i = (pre.map FieldSet_t.numFields).sum + j ∧
          f = { toField_t := S.fields.get ⟨j, h⟩, className := S.className,
                inst := pre.foldl (fun q s => s.derivedPtrToBasePtr q) p,
                field := (S.fields.get ⟨j, h⟩).fieldGetter
                  (pre.foldl (fun q s => s.derivedPtrToBasePtr q) p) } := by
  induction fs with
  | nil => intro p i f h; simp [ReflectedFields.walk] at h
  | cons S base ih =>
    intro p i f h
    by_cases hi : i < S.numFields
    · simp only [ReflectedFields.walk, hi, dite_true, Option.some.injEq] at h
      exact ⟨[], S, base, i, hi, rfl, by simp, h.symm⟩
    · simp only [ReflectedFields.walk, hi, dite_false] at h
      obtain ⟨pre, S', post, j, hj, hfs, hidx, hf⟩ := ih _ _ f h
      refine ⟨S :: pre, S', post, j, hj, by rw [hfs]; rfl, ?_, hf⟩
      simp only [List.map_cons, List.sum_cons]
      omega

end reflection

namespace serialization.InstanceSerializer

open reflection

variable {V : Type}

theorem concatUpTo_add (part : Nat → List Byte) (a b : Nat) :
    concatUpTo part (a + b) = concatUpTo part a ++ concatUpTo (fun i => part (a + i)) b := by
  induction b with
  | zero => simp [concatUpTo_zero]
  | succ b ih => rw [← Nat.add_assoc, concatUpTo_succ, ih, concatUpTo_succ, List.append_assoc]

theorem concatUpTo_congr (part part' : Nat → List Byte) (n : Nat)
    (h : ∀ i, i < n → part i = part' i) : concatUpTo part n = concatUpTo part' n := by
  induction n with
  | zero => rfl
  | succ n ih =>
    rw [concatUpTo_succ, concatUpTo_succ, ih (fun i hi => h i (by omega)), h n (by omega)]

theorem concatUpTo_list {α : Type} (g : α → List Byte) (l : List α) :
    concatUpTo (fun i => match l[i]? with
      | some x => g x
      | none => []) l.length = (l.map g).flatten := by
  induction l with
  | nil => rfl
  | cons x l ih =>
    rw [List.length_cons, Nat.add_comm, concatUpTo_add, List.map_cons, List.flatten_cons, ← ih]
    congr 1
    · rw [concatUpTo_succ _ 0, concatUpTo_zero]
      simp
    · apply concatUpTo_congr
      intro i _
      simp [Nat.add_comm 1 i]

/-- The bytes gathered index by index through `operator []` are the bytes
gathered level by level along the chain. -/
theorem concatUpTo_walk (g : reflection.Field V → List Byte) (fs : List (FieldSet_t V)) :
    ∀ inst : Addr,
      concatUpTo (fun i => match ReflectedFields.walk fs inst i with
        | some f => g f
        | none => []) (fs.map FieldSet_t.numFields).sum = chainConcat g inst fs := by
  induction fs with
  | nil => intro inst; rfl
  | cons S base ih =>
    intro inst
    rw [List.map_cons, List.sum_cons, concatUpTo_add, chainConcat, ← ih]
    congr 1
    · rw [← concatUpTo_list]
      apply concatUpTo_congr
      intro i hi
      have hi' : i < S.fields.length := hi
      simp only [ReflectedFields.walk, hi, dite_true, Field.new, List.getElem?_eq_getElem hi',
        List.get_eq_getElem]
    · apply concatUpTo_congr
      intro i _
      have hlt : ¬ (S.numFields + i < S.numFields) := by omega
      simp only [ReflectedFields.walk, hlt, dite_false, Nat.add_sub_cancel_left]

theorem chainConcat_instance (mem : Memory V) (fs : List (FieldSet_t V)) : ∀ inst : Addr,
    chainConcat (fun f => f.refl.encode (mem f.field)) inst fs = instanceLayout mem inst fs := by
  induction fs with
  | nil => intro inst; rfl
  | cons S base ih => intro inst; simp only [chainConcat, instanceLayout, ih]

theorem chainConcat_schema (typeInfo : ITypeReflection V → List Byte)
    (fs : List (FieldSet_t V)) : ∀ inst : Addr,
    chainConcat (fun f => lengthPrefixed (nameBytes f.className) ++
      lengthPrefixed (nameBytes f.name) ++ typeInfo f.refl) inst fs = schemaLayout typeInfo fs := by
  induction fs with
  | nil => intro inst; rfl
  | cons S base ih => intro inst; simp only [chainConcat, schemaLayout, ih]

end serialization.InstanceSerializer

namespace reflection

open serialization

variable {V : Type}

/-- C4: in a chain `pre ++ S :: post`, an index that lies `j` places past the
fields of `pre`, with `j < S.numFields`, yields a field whose descriptor is
`S.fields[j]`, whose class name is that of `S`, whose instance address is the
original address taken through the pointer adjustments of `pre` in chain order
(the original address itself when `pre` is empty), and whose field address is
what the descriptor's getter gives at that instance address. -/
theorem ReflectedFields.get_resolves (inst : Addr) (pre : List (FieldSet_t V)) (S : FieldSet_t V)
    (post : List (FieldSet_t V)) (j : Nat) (h : j < S.numFields) :
    ∃ f : reflection.Field V,
      (ReflectedFields.new inst (pre ++ S :: post)).get
          ((pre.map FieldSet_t.numFields).sum + j) = some f ∧
        f.toField_t = S.fields.get ⟨j, h⟩ ∧
        f.className = S.className ∧
        f.inst = pre.foldl (fun p s => s.derivedPtrToBasePtr p) inst ∧
        f.field = (S.fields.get ⟨j, h⟩).fieldGetter
          (pre.foldl (fun p s => s.derivedPtrToBasePtr p) inst) :=
  ⟨_, ReflectedFields.get_at_level inst pre S post j h, rfl, rfl, rfl, rfl⟩

/-- Witness of C4 on the three-level sample chain at address 100: index 4 is
the second field of the root class, `r1`, with the class name `Root`, at the
instance address 124 reached through both pointer adjustments (8, then 16),
one byte in; index 1 is the second field of the most-derived class at the
original address. -/
theorem ReflectedFields.get_resolves_witness :
    (∃ f : reflection.Field Bool,
      (ReflectedFields.new 100 [Sample.derived, Sample.middle, Sample.root]).get 4 = some f ∧
        f.toField_t = Sample.boolField "r1" 1 ∧ f.className = "Root" ∧ f.inst = 124 ∧
        f.field = 125) ∧
      ∃ f : reflection.Field Bool,
        (ReflectedFields.new 100 [Sample.derived, Sample.middle, Sample.root]).get 1 = some f ∧
          f.toField_t = Sample.boolField "d1" 1 ∧ f.className = "Derived" ∧ f.inst = 100 ∧
          f.field = 101 :=
  ⟨ReflectedFields.get_resolves 100 [Sample.derived, Sample.middle] Sample.root [] 1 (by decide),
    ReflectedFields.get_resolves 100 [] Sample.derived [Sample.middle, Sample.root] 1
      (by decide)⟩

end reflection

namespace serialization

/-- C18 fails on the code, at `unsigned char` and at `int`: the stream `02 41`
read as a vector of `unsigned char` has the length prefix 2, element 0 decodes
to `41` and element 1 fails for lack of input, and the output vector holds two
elements, `41` and the slot appended for the failed element; the stream
`02 05 80` read as a vector of `int` has the length prefix 2, element 0 decodes
to 5 and element 1 fails on a truncated integer, and the output vector holds 5
and the slot, 0.  In neither case does it hold just the one decoded element. -/
theorem Serializer_vector.failed_slot_counterexample :
    (SmvIntSerializer.deserializeValue IntType.uint64_t [0x02, 0x41] 0 = (true, [0x41], 2) ∧
      Serializer.char.deserialize [0x41] 0x00 = (true, [], 0x41) ∧
      Serializer.char.deserialize [] 0x00 = (false, [], 0x00) ∧
      Serializer_vector.deserialize Serializer.char 0x00 [0x02, 0x41] [] =
        (false, [], [0x41, 0x00]) ∧
      ¬ (Serializer_vector.deserialize Serializer.char 0x00 [0x02, 0x41] []).2.2 = [0x41]) ∧
    (SmvIntSerializer.deserializeValue IntType.uint64_t [0x02, 0x05, 0x80] 0 =
        (true, [0x05, 0x80], 2) ∧
      (Serializer.smvInt IntType.int).deserialize [0x05, 0x80] 0 = (true, [0x80], 5) ∧
      (Serializer.smvInt IntType.int).deserialize [0x80] 0 = (false, [], 0) ∧
      Serializer_vector.deserialize (Serializer.smvInt IntType.int) 0 [0x02, 0x05, 0x80] [] =
        (false, [], [5, 0]) ∧
      ¬ (Serializer_vector.deserialize (Serializer.smvInt IntType.int) 0
          [0x02, 0x05, 0x80] []).2.2 = [5]) := by
  decide

/-- Witness of C18 as amended: the stream `02 05 80` read as a vector of `int`
into a vector that held three elements. -/
theorem Serializer_vector.failed_element_keeps_slot_witness :
    Serializer_vector.deserialize (Serializer.smvInt IntType.int) 0 [0x02, 0x05, 0x80] [7, 8, 9] =
      (false, [], [5] ++ [0]) :=
  Serializer_vector.failed_element_keeps_slot (Serializer.smvInt IntType.int) 0
    [0x02, 0x05, 0x80] [0x05, 0x80] [0x80] [] 2 [5] 0 [7, 8, 9] (by decide) (by decide)
    ⟨[0x80], by decide, rfl⟩ (by decide)

end serialization

namespace serialization.InstanceSerializer

open reflection

variable {V : Type}

/-- C3: for every chain of field sets, every instance address and every memory
`mem` holding the instance, if for every level `S` of the chain and every
descriptor of `S` the codec round-trips on the object the field holds (at the
address the descriptor's getter gives at the sub-object address of that
level), then `serializeInstance` on an unbounded writer succeeds and appends
the field encodings level by level in chain order (`instanceLayout`), and
`deserializeInstance` run on those bytes followed by any `rest`, over any
memory `mem0`, succeeds, leaves exactly `rest` unread, and leaves at the
address of every field of every level the object it held in `mem`. -/
theorem instance_roundtrip (inst : Addr) (fieldSet : List (FieldSet_t V)) (mem : Memory V)
    (hrt : ∀ (pre : List (FieldSet_t V)) (S : FieldSet_t V) (post : List (FieldSet_t V))
      (j : Nat) (h : j < S.fields.length), fieldSet = pre ++ S :: post →
      (S.fields.get ⟨j, h⟩).refl.RoundTrips
        (mem ((S.fields.get ⟨j, h⟩).fieldGetter
          (pre.foldl (fun p s => s.derivedPtrToBasePtr p) inst))))
    (className : String) (w : IWriter) (hw : w.room = none) (rest : IReader) (mem0 : Memory V) :
    serializeInstance w className (ReflectedFields.new inst fieldSet) mem =
        some (true, w.append (instanceLayout mem inst fieldSet)) ∧
      ∃ mem1,
        deserializeInstance (instanceLayout mem inst fieldSet ++ rest) className
            (ReflectedFields.new inst fieldSet) mem0 = some (true, rest, mem1) ∧
          ∀ (pre : List (FieldSet_t V)) (S : FieldSet_t V) (post : List (FieldSet_t V))
            (j : Nat) (h : j < S.fields.length), fieldSet = pre ++ S :: post →
            mem1 ((S.fields.get ⟨j, h⟩).fieldGetter
                (pre.foldl (fun p s => s.derivedPtrToBasePtr p) inst)) =
              mem ((S.fields.get ⟨j, h⟩).fieldGetter
                (pre.foldl (fun p s => s.derivedPtrToBasePtr p) inst)) := by
  have hview : ∀ i f, (ReflectedFields.new inst fieldSet).get i = some f →
      f.refl.RoundTrips (mem f.field) := by
    intro i f hf
    obtain ⟨pre, S, post, j, hj, hfs, _, hfeq⟩ :=
      ReflectedFields.walk_some_decomp fieldSet inst i f hf
    rw [hfeq]
    exact hrt pre S post j hj hfs
  obtain ⟨hser, mem1, hdes, hres⟩ :=
    roundtrip_over_indices inst fieldSet mem hview className w hw rest mem0
  have hlay := serializeLoop_layout (ReflectedFields.new inst fieldSet) mem
    (fun i => match (ReflectedFields.new inst fieldSet).get i with
      | some f => f.refl.encode (mem f.field)
      | none => []) IWriter.empty
    (fun i hi => by
      obtain ⟨f, hf⟩ := ReflectedFields_get_some inst fieldSet i hi
      refine ⟨f, hf, ?_⟩
      simp only [hf]
      exact (hview i f hf).1 _ (IWriter.append_room _ IWriter.empty_room _))
    (ReflectedFields.new inst fieldSet).count 0 (by omega)
  rw [concatUpTo_zero, IWriter.append_nil] at hlay
  have henc : encode (ReflectedFields.new inst fieldSet) mem =
      instanceLayout mem inst fieldSet := by
    simp only [encode, serializeInstance, hlay, IWriter.empty_append_bytes]
    rw [ReflectedFields.count_new]
    simp only [ReflectedFields.get, ReflectedFields.new]
    rw [concatUpTo_walk, chainConcat_instance]
  rw [henc] at hser hdes
  refine ⟨hser, mem1, hdes, fun pre S post j hj hfs => ?_⟩
  subst hfs
  exact hres _ _ (ReflectedFields.get_at_level inst pre S post j hj)

theorem Sample_chain_refl (S : FieldSet_t Bool)
    (hS : S ∈ [Sample.derived, Sample.middle, Sample.root]) (d : Field_t Bool)
    (hd : d ∈ S.fields) : d.refl = Serializer.bool := by
  simp only [List.mem_cons, List.mem_singleton, List.not_mem_nil, or_false] at hS
  rcases hS with rfl | rfl | rfl <;>
    simp only [Sample.derived, Sample.middle, Sample.root, List.mem_cons, List.mem_singleton,
      List.not_mem_nil, or_false] at hd
  · rcases hd with rfl | rfl <;> rfl
  · subst hd; rfl
  · rcases hd with rfl | rfl <;> rfl

/-- Witness of C3: the three-level sample chain at address 100, serialized from
a memory in which the objects at even addresses hold `true` (the five fields
go out as `01 00 01 01 00`) and read back over a memory holding `false`
everywhere. -/
theorem instance_roundtrip_witness :
    (serializeInstance IWriter.empty "Derived"
        (ReflectedFields.new 100 [Sample.derived, Sample.middle, Sample.root]) Sample.evenTrue =
        some (true, IWriter.empty.append
          (instanceLayout Sample.evenTrue 100 [Sample.derived, Sample.middle, Sample.root])) ∧
      ∃ mem1,
        deserializeInstance
            (instanceLayout Sample.evenTrue 100 [Sample.derived, Sample.middle, Sample.root] ++
              [0x07]) "Derived"
            (ReflectedFields.new 100 [Sample.derived, Sample.middle, Sample.root])
            (fun _ => false) = some (true, [0x07], mem1) ∧
          ∀ (pre : List (FieldSet_t Bool)) (S : FieldSet_t Bool) (post : List (FieldSet_t Bool))
            (j : Nat) (h : j < S.fields.length),
            [Sample.derived, Sample.middle, Sample.root] = pre ++ S :: post →
            mem1 ((S.fields.get ⟨j, h⟩).fieldGetter
                (pre.foldl (fun p s => s.derivedPtrToBasePtr p) 100)) =
              Sample.evenTrue ((S.fields.get ⟨j, h⟩).fieldGetter
                (pre.foldl (fun p s => s.derivedPtrToBasePtr p) 100))) ∧
      instanceLayout Sample.evenTrue 100 [Sample.derived, Sample.middle, Sample.root] =
        [0x01, 0x00, 0x01, 0x01, 0x00] ∧
      serializeInstance IWriter.empty "Derived"
        (ReflectedFields.new 100 [Sample.derived, Sample.middle, Sample.root]) Sample.evenTrue =
        some (true, ⟨[0x01, 0x00, 0x01, 0x01, 0x00], none⟩) :=
  ⟨instance_roundtrip 100 [Sample.derived, Sample.middle, Sample.root] Sample.evenTrue
      (fun pre S post j h hfs => by
        rw [Sample_chain_refl S (by rw [hfs]; simp) _ (List.get_mem _ _ _)]
        exact Serializer.bool_roundTrips _)
      "Derived" IWriter.empty rfl [0x07] (fun _ => false),
    by decide, by decide⟩

/-- C19: on an unbounded writer, when the type-information writer of every
descriptor of the chain succeeds and appends the block `typeInfo` of the
descriptor's reflection, `serializeSchema` succeeds and the writer holds, after
what it held, the SmvInt encoding of the number of fields of the whole chain
and then, level by level in chain order and field by field, the record of each
field: the length-prefixed name of the class of that level (the class that
declares the field, not the `className` argument), the length-prefixed name of
the field and its type-information block; nothing else. -/
theorem serializeSchema_layout (sti : ITypeReflection V → IWriter → Option (Bool × IWriter))
    (inst : Addr) (fieldSet : List (FieldSet_t V)) (typeInfo : ITypeReflection V → List Byte)
    (className : String) (w : IWriter) (hw : w.room = none)
    (h : ∀ S ∈ fieldSet, ∀ d ∈ S.fields, ∀ w' : IWriter, w'.room = none →
      sti d.refl w' = some (true, w'.append (typeInfo d.refl))) :
    serializeSchema sti w className (ReflectedFields.new inst fieldSet) =
      some (true, w.append
        (SmvIntSerializer.encode IntType.size_t
            ((fieldSet.map FieldSet_t.numFields).sum : Nat) ++
          schemaLayout typeInfo fieldSet)) := by
  have hidx := serializeSchema_by_index sti inst fieldSet
    (fun i => match (ReflectedFields.new inst fieldSet).get i with
      | some f => typeInfo f.refl
      | none => []) className w hw
    (fun i f hf w' hw' => by
      obtain ⟨pre, S, post, j, hj, hfs, _, hfeq⟩ :=
        ReflectedFields.walk_some_decomp fieldSet inst i f hf
      simp only [hf]
      rw [hfeq]
      exact h S (by rw [hfs]; simp) _ (List.get_mem _ _ _) w' hw')
  rw [hidx, ReflectedFields.count_new]
  have hrec : concatUpTo (schemaRecord (ReflectedFields.new inst fieldSet)
      (fun i => match (ReflectedFields.new inst fieldSet).get i with
        | some f => typeInfo f.refl
        | none => [])) (fieldSet.map FieldSet_t.numFields).sum =
      schemaLayout typeInfo fieldSet := by
    rw [← chainConcat_schema typeInfo fieldSet inst, ← concatUpTo_walk]
    apply concatUpTo_congr
    intro i _
    simp only [schemaRecord, ReflectedFields.get, ReflectedFields.new]
    cases ReflectedFields.walk fieldSet inst i <;> rfl
  rw [hrec]

/-- Witness of C19: the schema of the three-level sample chain, written with
the argument `className` set to a name no field is declared in; the bytes
`serializeSchema` writes are the count 5 and five records, each a class name
(`Derived`, `Derived`, `Middle`, `Root`, `Root`), a field name and the tag
byte `02`. -/
theorem serializeSchema_layout_witness :
    serializeSchema Sample.typeInformation IWriter.empty "Other"
        (ReflectedFields.new 100 [Sample.derived, Sample.middle, Sample.root]) =
      some (true, IWriter.empty.append
        (SmvIntSerializer.encode IntType.size_t
            (([Sample.derived, Sample.middle, Sample.root].map FieldSet_t.numFields).sum : Nat) ++
          schemaLayout (fun _ => [TAG_BOOL]) [Sample.derived, Sample.middle, Sample.root])) ∧
      serializeSchema Sample.typeInformation IWriter.empty "Other"
        (ReflectedFields.new 100 [Sample.derived, Sample.middle, Sample.root]) =
      some (true, ⟨[5,
          7, 68, 101, 114, 105, 118, 101, 100, 2, 100, 48, 2,
          7, 68, 101, 114, 105, 118, 101, 100, 2, 100, 49, 2,
          6, 77, 105, 100, 100, 108, 101, 2, 109, 48, 2,
          4, 82, 111, 111, 116, 2, 114, 48, 2,
          4, 82, 111, 111, 116, 2, 114, 49, 2], none⟩) ∧
      SmvIntSerializer.encode IntType.size_t
            (([Sample.derived, Sample.middle, Sample.root].map FieldSet_t.numFields).sum : Nat) ++
          schemaLayout (fun _ => [TAG_BOOL]) [Sample.derived, Sample.middle, Sample.root] =
        [5,
          7, 68, 101, 114, 105, 118, 101, 100, 2, 100, 48, 2,
          7, 68, 101, 114, 105, 118, 101, 100, 2, 100, 49, 2,
          6, 77, 105, 100, 100, 108, 101, 2, 109, 48, 2,
          4, 82, 111, 111, 116, 2, 114, 48, 2,
          4, 82, 111, 111, 116, 2, 114, 49, 2] :=
  ⟨serializeSchema_layout Sample.typeInformation 100 [Sample.derived, Sample.middle, Sample.root]
      (fun _ => [TAG_BOOL]) "Other" IWriter.empty rfl
      (fun _ _ _ _ w' hw' => by
        simp only [Sample.typeInformation, IWriter.write_unbounded w' hw']),
    by decide, by decide⟩

end serialization.InstanceSerializer
